import Mathlib

/-!
# zio: a shallow embedding of `zmq-broker/zutil/zio.c`

The C structure `struct zio_ctx` becomes the record `Zio`; every function of
`zio.c` that touches it becomes a Lean function of the same name.  System
calls take their outcome as an explicit argument (`ReadRes`, `WriteRes`), and
what leaves the object (frames handed to the send callback, bytes moved on the
descriptors, runs of the close callback, the poll registration) is logged in
the record `Sys` that wraps the object.

Conventions:

* the flags word is a natural number and the flag constants are the bit masks of
  the source; `~m` on the `unsigned` word is `UINT_MASK ^^^ m`;
* return values that may be negative are integers, counts are natural numbers;
* the loop of `zio_flush` runs on fuel and `zio_flush_returns` shows that the fuel
  it is given always suffices;
* the callbacks are functions of what they have been handed so far and do not call
  back into the object; `zio_debug` and the magic cookie are left out.

The circular buffer (`cbuf.h`), the JSON helpers (`util/util.h`) and base64
are not part of the two source files; they are modelled from the
specification and marked so.
-/

namespace FluxZio

/-- One octet. -/
abbrev Byte := Fin 256

/-! ## Constants of `zio.c` -/

def ZIO_EOF : Nat := 1 <<< 0
def ZIO_EOF_SENT : Nat := 1 <<< 1
def ZIO_BUFFERED : Nat := 1 <<< 2
def ZIO_LINE_BUFFERED : Nat := 1 <<< 4
def ZIO_CLOSED : Nat := 1 <<< 5
def ZIO_VERBOSE : Nat := 1 <<< 6

def ZIO_READER : Nat := 1
def ZIO_WRITER : Nat := 2

/-- The mask of an `unsigned`: `~m` on the flags word is `UINT_MASK ^^^ m`. -/
def UINT_MASK : Nat := 0xFFFFFFFF

/-- Values of `errno` the code distinguishes or the model produces. -/
def EAGAIN : Nat := 11
def EBADF : Nat := 9
def EIO : Nat := 5

/-- Arguments of `cbuf_create (64, 1638400)` in `zio_init_buffer`. -/
def CBUF_MINSIZE : Nat := 64
def CBUF_MAXSIZE : Nat := 1638400

/-- The newline octet that ends a line. -/
def NEWLINE : Byte := 10

/-! ## JSON values (json-c), restricted to the shapes `zio.c` inspects -/

/-- A member value of the inner object: a boolean or a string. -/
inductive JVal where
  | bool (b : Bool)
  | str (s : List Char)
  deriving DecidableEq, Repr

/-- The inner object `{ "data": ..., "eof": ... }`: members in insertion order. -/
abbrev JObj := List (String × JVal)

/-- The envelope: a top-level object whose member values are objects or JSON
null (`none`, which json-c hands out as a NULL pointer). -/
abbrev Envelope := List (String × Option JObj)

/-- The call `json_object_object_add (o, key, val)`: replaces the value of an existing key,
appends a new member otherwise. -/
def json_object_object_add {α : Type} (o : List (String × α)) (key : String) (val : α) :
    List (String × α) :=
  if (o.lookup key).isSome then o.map (fun p => if p.1 == key then (key, val) else p)
  else o ++ [(key, val)]

/-- The call `json_object_object_del (o, key)`. -/
def json_object_object_del {α : Type} (o : List (String × α)) (key : String) :
    List (String × α) :=
  o.filter (fun p => p.1 != key)

/-- The call `json_object_object_get_ex (o, key, &x)`: `none` when it returns false,
`some x` when it returns true. -/
def json_object_object_get_ex {α : Type} (o : List (String × α)) (key : String) : Option α :=
  o.lookup key

/-- The call `util_json_object_new_object ()`. -/
def util_json_object_new_object {α : Type} : List (String × α) := []

/-! ## Base64 -/

/-- The alphabet of RFC 4648, section 4. -/
def b64table : List Char :=
  "ABCDEFGHIJKLMNOPQRSTUVWXYZabcdefghijklmnopqrstuvwxyz0123456789+/".toList

def b64char (n : Nat) : Char := b64table.getD n 'A'

def b64val (c : Char) : Option Nat :=
  if c ∈ b64table then some (b64table.indexOf c) else none

def byteOfNat (n : Nat) : Byte := ⟨n % 256, Nat.mod_lt n (by decide)⟩

/-- Modelled from the spec: the base64 encoder behind `util_json_object_add_base64`
(`util/util.h`, not among the sources): standard base64 of RFC 4648 with padding and
no line wrapping. -/
def b64encode : List Byte → List Char
  | [] => []
  | [a] => [b64char (a.val / 4), b64char (a.val % 4 * 16), '=', '=']
  | [a, b] =>
    [b64char (a.val / 4), b64char (a.val % 4 * 16 + b.val / 16), b64char (b.val % 16 * 4), '=']
  | a :: b :: c :: rest =>
    b64char (a.val / 4) :: b64char (a.val % 4 * 16 + b.val / 16) ::
      b64char (b.val % 16 * 4 + c.val / 64) :: b64char (c.val % 64) :: b64encode rest

/-- Modelled from the spec: the base64 decoder behind `util_json_object_get_base64`
(`util/util.h`, not among the sources): standard base64 of RFC 4648; `none` when the
text is not valid base64. -/
def b64decode : List Char → Option (List Byte)
  | [] => some []
  | c0 :: c1 :: c2 :: c3 :: rest =>
    match b64val c0, b64val c1 with
    | some v0, some v1 =>
      if c2 = '=' then
        if c3 = '=' ∧ rest = [] then some [byteOfNat (v0 * 4 + v1 / 16)] else none
      else
        match b64val c2 with
        | none => none
        | some v2 =>
          if c3 = '=' then
            if rest = [] then
              some [byteOfNat (v0 * 4 + v1 / 16), byteOfNat (v1 % 16 * 16 + v2 / 4)]
            else none
          else
            match b64val c3 with
            | none => none
            | some v3 =>
              (b64decode rest).map (fun tl =>
                byteOfNat (v0 * 4 + v1 / 16) :: byteOfNat (v1 % 16 * 16 + v2 / 4) ::
                  byteOfNat (v2 % 4 * 64 + v3) :: tl)
    | _, _ => none
  | _ => none

/-! ## JSON helpers of `util/util.h` -/

/-- Modelled from the spec: `util_json_object_add_base64 (o, name, p, len)` of
`util/util.h` (not among the sources): stores the base64 text of the `len` octets
at `p` under `name`. -/
def util_json_object_add_base64 (o : JObj) (name : String) (p : List Byte) (len : Nat) : JObj :=
  json_object_object_add o name (JVal.str (b64encode (p.take len)))

/-- Modelled from the spec: `util_json_object_add_boolean (o, name, val)` of
`util/util.h` (not among the sources). -/
def util_json_object_add_boolean (o : JObj) (name : String) (val : Bool) : JObj :=
  json_object_object_add o name (JVal.bool val)

/-- Modelled from the spec: `util_json_object_get_boolean (o, name, &v)` of
`util/util.h` (not among the sources).  The result is the return value and the
content of `v` afterwards: `0` and the member's value when `o` has a member `name`
(a string counts as true when non-empty, as `json_object_get_boolean` has it), `-1`
and `v` untouched otherwise (an optional field is absent). -/
def util_json_object_get_boolean (o : Option JObj) (name : String) (v : Bool) : Int × Bool :=
  match o with
  | none => (-1, v)
  | some obj =>
    match obj.lookup name with
    | none => (-1, v)
    | some (JVal.bool b) => (0, b)
    | some (JVal.str s) => (0, !s.isEmpty)

/-- Modelled from the spec: `util_json_object_get_base64 (o, name, &dat, &len)` of
`util/util.h` (not among the sources).  `some d` stands for the return value `0` with
`dat` pointing to the decoded octets `d` and `len = d.length`; `none` stands for the
return value `-1` with both outputs untouched, which is the outcome when the member
is absent (the callers test `== 0` for "data is present" and `< 0` for failure), is
not a string, or is not valid base64. -/
def util_json_object_get_base64 (o : Option JObj) (name : String) : Option (List Byte) :=
  match o with
  | none => none
  | some obj =>
    match obj.lookup name with
    | some (JVal.str s) => b64decode s
    | _ => none

/-! ## The circular buffer of `cbuf.h` -/

/-- Modelled from the spec: `cbuf_used` of `cbuf.h` (not among the sources).  The ring
is the list of the octets it holds, oldest first. -/
def cbuf_used (cb : List Byte) : Nat := cb.length

/-- Modelled from the spec: `cbuf_free` of `cbuf.h` (not among the sources): the room
left below the maximum capacity the ring may grow to. -/
def cbuf_free (cb : List Byte) : Nat := CBUF_MAXSIZE - cb.length

/-- Modelled from the spec: `cbuf_read (cb, dst, len)` of `cbuf.h` (not among the
sources): "up to n bytes, removing them".  Result: return value, octets copied to
`dst`, ring afterwards. -/
def cbuf_read (cb : List Byte) (len : Nat) : Int × List Byte × List Byte :=
  (((cb.take len).length : Nat), cb.take len, cb.drop len)

/-- Modelled from the spec: the number of octets of `cb` "up to and including the
final complete newline; if none, 0". -/
def cbuf_lines_used : List Byte → Nat
  | [] => 0
  | b :: rest =>
    if 0 < cbuf_lines_used rest then cbuf_lines_used rest + 1
    else if b = NEWLINE then 1
    else 0

/-- Modelled from the spec: the number of octets of `cb` through and including its
`n`-th newline, when `cb` holds that many complete lines. -/
def cbuf_lines_end : Nat → List Byte → Option Nat
  | 0, _ => some 0
  | n + 1, cb =>
    if NEWLINE ∈ cb then
      (cbuf_lines_end n (cb.drop (cb.indexOf NEWLINE + 1))).map
        (fun k => k + (cb.indexOf NEWLINE + 1))
    else none

/-- Modelled from the spec: `cbuf_read_line (cb, dst, len, lines)` of `cbuf.h` (not
among the sources).  With `lines = -1`, which is what `zio_read` passes, every complete
line that is available within `len` octets is read at once: "the bytes up to and
including the final complete newline; if none, 0" (the source says "For line buffered
IO we will read all available lines").  With `0 < lines` that many lines are asked for;
one line is "up to max bytes through and including the first newline, or 0 if no
complete line is present".  Result: return value, octets copied to `dst`, ring
afterwards. -/
def cbuf_read_line (cb : List Byte) (len : Nat) (lines : Int) :
    Int × List Byte × List Byte :=
  if lines = -1 then
    let k := cbuf_lines_used (cb.take len)
    ((k : Nat), cb.take k, cb.drop k)
  else if 0 < lines then
    match cbuf_lines_end lines.toNat cb with
    | some n =>
      let k := min n len
      ((k : Nat), cb.take k, cb.drop k)
    | none => (0, [], cb)
  else (0, [], cb)

/-- Modelled from the spec: `cbuf_write (cb, src, len, &ndropped)` of `cbuf.h` (not
among the sources) under `CBUF_NO_DROP`: "bytes accepted, or fails if accepting would
exceed max capacity under a no-drop policy".  Result: return value, ring afterwards. -/
def cbuf_write (cb : List Byte) (src : List Byte) : Int × List Byte :=
  if src.length > cbuf_free cb then (-1, cb) else ((src.length : Nat), cb ++ src)

/-! ## System calls -/

/-- Outcome of one nonblocking `read (2)`: the octets it returned (none at end of
file), or the `errno` it failed with. -/
inductive ReadRes where
  | ok (bs : List Byte)
  | err (errno : Nat)
  deriving DecidableEq, Repr

/-- Outcome of one nonblocking `write (2)`: the number of octets it took, or the
`errno` it failed with. -/
inductive WriteRes where
  | ok (n : Nat)
  | err (errno : Nat)
  deriving DecidableEq, Repr

/-- A `read` on descriptor `fd`: fails with `EBADF` on a descriptor that is not
open (`-1` after `zio_close`), has the outcome `r` otherwise. -/
def fd_read (fd : Int) (r : ReadRes) : ReadRes :=
  if fd < 0 then ReadRes.err EBADF else r

/-- A `write` of `len` octets on descriptor `fd`: fails with `EBADF` on a descriptor
that is not open; a write of no octets on an open descriptor moves nothing and returns
0 (this is also what `cbuf_read_to_fd` returns for an empty ring); otherwise the write
has the outcome `w` and takes at most `len` octets. -/
def fd_write (fd : Int) (len : Nat) (w : WriteRes) : WriteRes :=
  if fd < 0 then WriteRes.err EBADF
  else if len = 0 then WriteRes.ok 0
  else match w with
    | WriteRes.ok n => WriteRes.ok (min n len)
    | WriteRes.err e => WriteRes.err e

/-- Modelled from the spec: `cbuf_write_from_fd (cb, fd, -1, NULL)` of `cbuf.h` (not
among the sources): "a single nonblocking read from fd into the free region(s) of the
ring; returns count read, 0 for EOF, negative for error".  Result: return value,
`errno`, ring afterwards, octets read. -/
def cbuf_write_from_fd (cb : List Byte) (fd : Int) (r : ReadRes) :
    Int × Nat × List Byte × List Byte :=
  match fd_read fd r with
  | ReadRes.ok bs => ((bs.length : Nat), 0, cb ++ bs, bs)
  | ReadRes.err e => (-1, e, cb, [])

/-- Modelled from the spec: `cbuf_read_to_fd (cb, fd, -1)` of `cbuf.h` (not among the
sources): "a single nonblocking write from the used region(s) of the ring to fd;
returns count written, negative for error".  Result: return value, `errno`, ring
afterwards, octets written. -/
def cbuf_read_to_fd (cb : List Byte) (fd : Int) (w : WriteRes) :
    Int × Nat × List Byte × List Byte :=
  match fd_write fd cb.length w with
  | WriteRes.ok n => ((n : Nat), 0, cb.drop n, cb.take n)
  | WriteRes.err e => (-1, e, cb, [])

/-! ## The zio object -/

/-- The signature `zio_send_f`: the callback sees the frames handed over so far and the
new frame, and returns an `int`. -/
abbrev SendFn := List Envelope → Envelope → Int

/-- The record `struct zio_ctx`.  `buf` is the content of the ring; `send` is taken as
present (`zio_sendmsg` calls it unconditionally); `close` is `none` for a NULL
callback, otherwise the function from the number of earlier runs to the value the
callback returns; `zloop` tells whether a loop is attached. -/
structure Zio where
  name : String
  io_type : Nat
  srcfd : Int
  dstfd : Int
  buf : List Byte
  buffersize : Nat
  flags : Nat
  send : SendFn
  close : Option (Nat → Int)
  zloop : Bool

/-- The object together with the record of what it did to the outside world. -/
structure Sys where
  /-- The object itself. -/
  zio : Zio
  /-- Frames handed to the send callback, oldest first. -/
  sent : List Envelope
  /-- Octets returned by the reads on `srcfd`, in order. -/
  rd : List Byte
  /-- Octets taken by the writes on `dstfd`, in order. -/
  wr : List Byte
  /-- Runs of `zio_close`. -/
  close_runs : Nat
  /-- Runs of the close callback. -/
  close_calls : Nat
  /-- Whether a poll interest for the object is registered with the loop. -/
  polled : Bool

def zio_allocate (name : String) (reader : Bool) (send : SendFn) : Zio :=
  { name := name
    io_type := if reader then ZIO_READER else ZIO_WRITER
    srcfd := -1
    dstfd := -1
    buf := []
    buffersize := 4096
    flags := ZIO_BUFFERED ||| ZIO_LINE_BUFFERED
    send := send
    close := none
    zloop := false }

def zio_reader (zio : Zio) : Bool := zio.io_type == ZIO_READER

def zio_writer (zio : Zio) : Bool := zio.io_type == ZIO_WRITER

def zio_clear_buffered (zio : Zio) : Zio :=
  { zio with flags := zio.flags &&& (UINT_MASK ^^^ (ZIO_LINE_BUFFERED ||| ZIO_BUFFERED)) }

def zio_line_buffered (zio : Zio) : Bool := zio.flags &&& ZIO_LINE_BUFFERED != 0

def zio_buffered (zio : Zio) : Bool := zio.flags &&& ZIO_BUFFERED != 0

def zio_set_eof (zio : Zio) : Zio := { zio with flags := zio.flags ||| ZIO_EOF }

def zio_eof (zio : Zio) : Bool := zio.flags &&& ZIO_EOF != 0

def zio_eof_pending (zio : Zio) : Bool := zio_eof zio && cbuf_used zio.buf == 0

def zio_buffer_used (zio : Zio) : Nat := cbuf_used zio.buf

def zio_buffer_empty (zio : Zio) : Bool := !zio_buffered zio || cbuf_used zio.buf == 0

def zio_eof_sent (zio : Zio) : Bool := zio.flags &&& ZIO_EOF_SENT != 0

def zio_closed (zio : Zio) : Bool := zio.flags &&& ZIO_CLOSED != 0

def zio_set_unbuffered (zio : Zio) : Int × Zio := (0, zio_clear_buffered zio)

def zio_set_buffered (zio : Zio) ( _buffersize : Nat) : Int × Zio :=
  (0, { zio with flags := zio.flags ||| ZIO_BUFFERED })

def zio_set_line_buffered (zio : Zio) : Int × Zio :=
  let r := zio_set_buffered zio 4096
  (r.1, { r.2 with flags := r.2.flags ||| ZIO_LINE_BUFFERED })

def zio_set_verbose (zio : Zio) : Int × Zio :=
  (0, { zio with flags := zio.flags ||| ZIO_VERBOSE })

def zio_set_quiet (zio : Zio) : Int × Zio :=
  (0, { zio with flags := zio.flags &&& (UINT_MASK ^^^ ZIO_VERBOSE) })

/-- The prefix and the log function are not part of the record; only the flag changes. -/
def zio_set_debug (zio : Zio) : Int × Zio := (0, (zio_set_verbose zio).2)

def zio_set_send_cb (zio : Zio) (sendf : SendFn) : Int × Zio := (0, { zio with send := sendf })

def zio_set_close_cb (zio : Zio) (closef : Option (Nat → Int)) : Int × Zio :=
  (0, { zio with close := closef })

/-- Result: return value, octets copied to `dst`, object afterwards. -/
def zio_read (zio : Zio) (len : Nat) : Int × List Byte × Zio :=
  if zio_line_buffered zio && !zio_eof zio then
    let r := cbuf_read_line zio.buf len (-1)
    (r.1, r.2.1, { zio with buf := r.2.2 })
  else
    let r := cbuf_read zio.buf len
    (r.1, r.2.1, { zio with buf := r.2.2 })

/-- The pointer `p` is `none` when NULL. -/
def zio_data_object (p : Option (List Byte)) (len : Nat) : JObj :=
  let o : JObj := util_json_object_new_object
  match p with
  | some bytes => if len ≠ 0 then util_json_object_add_base64 o "data" bytes len else o
  | none => o

def zio_json_object_create (zio : Zio) (data : Option (List Byte)) (len : Nat) :
    Envelope × Zio :=
  let d := zio_data_object data len
  let r : JObj × Zio :=
    if zio_eof_pending zio then
      (util_json_object_add_boolean d "eof" true, { zio with flags := zio.flags ||| ZIO_EOF_SENT })
    else (d, zio)
  (json_object_object_add util_json_object_new_object zio.name (some r.1), r.2)

/-- The frame is built, handed to the send callback and logged. -/
def zio_send (s : Sys) (p : Option (List Byte)) (len : Nat) : Int × Sys :=
  let r := zio_json_object_create s.zio p len
  let rc := r.2.send s.sent r.1
  (rc, { s with zio := r.2, sent := s.sent ++ [r.1] })

def zio_data_to_flush (zio : Zio) : Nat :=
  let size := zio_buffer_used zio
  if size ≤ 0 then 0
  else if !zio_buffered zio || zio_line_buffered zio then size
  else if zio_eof zio || decide (size ≤ zio.buffersize) then size
  else 0

def zio_close (s : Sys) : Int × Sys :=
  let z1 : Zio :=
    if zio_reader s.zio then { s.zio with srcfd := -1 }
    else if zio_writer s.zio then { s.zio with dstfd := -1 }
    else s.zio
  let z2 : Zio := { z1 with flags := z1.flags ||| ZIO_CLOSED }
  match z2.close with
  | some f =>
    (f s.close_calls,
      { s with zio := z2, close_runs := s.close_runs + 1, close_calls := s.close_calls + 1 })
  | none => (0, { s with zio := z2, close_runs := s.close_runs + 1 })

/-- The loop of `zio_flush`; each unit of fuel pays for one evaluation of the loop
condition, and `none` means the fuel ran out before the loop ended. -/
def zio_flush_loop : Nat → Int → Sys → Option (Int × Sys)
  | 0, _, _ => none
  | fuel + 1, rc, s =>
    let len := zio_data_to_flush s.zio
    if len > 0 ∨ zio_eof s.zio = true then
      if len > 0 then
        let r := zio_read s.zio (len + 1)
        if r.1 ≤ 0 then
          some (if r.1 < 0 then -1 else rc, { s with zio := r.2.2 })
        else
          let q := zio_send { s with zio := r.2.2 } (some r.2.1) r.1.toNat
          if zio_eof_sent q.2.zio then some q else zio_flush_loop fuel q.1 q.2
      else
        let q := zio_send s none 0
        if zio_eof_sent q.2.zio then some q else zio_flush_loop fuel q.1 q.2
    else some (rc, s)

/-- Every pass of the loop that goes on takes at least one octet out of the ring, and
a pass with an empty ring is the last one, so `used + 2` evaluations of the loop
condition are enough (see `zio_flush_returns`). -/
def zio_flush (s : Sys) : Option (Int × Sys) :=
  zio_flush_loop (cbuf_used s.zio.buf + 2) 0 s

/-- The callback for a readable `srcfd`; `r` is the outcome of the read that
`cbuf_write_from_fd` makes.  In the source the test `if (errno == EAGAIN);` ends
in a semicolon, so the `return (0)` below it runs for every failure. -/
def zio_read_cb (r : ReadRes) (s : Sys) : Option (Int × Sys) :=
  let c := cbuf_write_from_fd s.zio.buf s.zio.srcfd r
  if c.1 < 0 then
    if c.2.1 = EAGAIN then some (0, s) else some (0, s)
  else
    let s1 : Sys := { s with zio := { s.zio with buf := c.2.2.1 }, rd := s.rd ++ c.2.2.2 }
    let s2 : Sys := if c.1 = 0 then { s1 with zio := zio_set_eof s1.zio } else s1
    match zio_flush s2 with
    | none => none
    | some f =>
      if zio_eof_sent f.2.zio then
        some (zio_close { f.2 with polled := false })
      else some (0, f.2)

def zio_write_pending (zio : Zio) : Bool :=
  if zio_closed zio then false
  else if zio_buffer_used zio > 0 || zio_eof zio then true
  else false

/-- The callback for a writable `dstfd`; `w` is the outcome of the write that
`cbuf_read_to_fd` makes. -/
def zio_writer_cb (w : WriteRes) (s : Sys) : Int × Sys :=
  let c := cbuf_read_to_fd s.zio.buf s.zio.dstfd w
  if c.1 < 0 then
    if c.2.1 = EAGAIN then (0, s) else (-1, s)
  else
    let s1 : Sys := { s with zio := { s.zio with buf := c.2.2.1 }, wr := s.wr ++ c.2.2.2 }
    let q : Int × Sys := if c.1 = 0 ∧ zio_eof_pending s1.zio = true then zio_close s1 else (c.1, s1)
    if !zio_write_pending q.2.zio then (q.1, { q.2 with polled := false }) else q

def zio_reader_poll (s : Sys) : Int × Sys := (0, { s with polled := true })

def zio_writer_schedule (s : Sys) : Int × Sys :=
  if !s.zio.zloop then (-1, s) else (0, { s with polled := true })

/-- The tail of `zio_write_data` once `n` octets of the payload are written: buffer
what remains. -/
def zio_write_data_enqueue (s : Sys) (buf : List Byte) (len n : Nat) : Int × Sys :=
  if len - n ≠ 0 then
    let c := cbuf_write s.zio.buf ((buf.drop n).take (len - n))
    if c.1 < 0 then (-1, s) else (0, { s with zio := { s.zio with buf := c.2 } })
  else (0, s)

/-- The part of `zio_write_data` after the direct write left `n` with a non-negative
value: return early when everything is written, buffer the rest otherwise. -/
def zio_write_data_written (s : Sys) (buf : List Byte) (len n : Nat) : Int × Sys :=
  if n = len then
    ((len : Nat), if zio_eof s.zio then (zio_close s).2 else s)
  else zio_write_data_enqueue s buf len n

/-- The write path; `w` is the outcome of the direct `write`, used only when that
write is made. -/
def zio_write_data (s : Sys) (buf : List Byte) (len : Nat) (w : WriteRes) : Int × Sys :=
  if zio_buffer_empty s.zio then
    match fd_write s.zio.dstfd len w with
    | WriteRes.err e => if e = EAGAIN then zio_write_data_written s buf len 0 else (-1, s)
    | WriteRes.ok n => zio_write_data_written { s with wr := s.wr ++ buf.take n } buf len n
  else zio_write_data_enqueue s buf len 0

/-- Result: return value, system afterwards, envelope afterwards. -/
def zio_write_json (s : Sys) (o : Envelope) (w : WriteRes) : Int × Sys × Envelope :=
  if !zio_writer s.zio then (-1, s, o)
  else
    match json_object_object_get_ex o s.zio.name with
    | some x =>
      let e := util_json_object_get_boolean x "eof" false
      let s1 : Sys := if e.1 = 0 ∧ e.2 = true then { s with zio := zio_set_eof s.zio } else s
      let q : Int × Sys :=
        match util_json_object_get_base64 x "data" with
        | some d => zio_write_data s1 d d.length w
        | none => (0, s1)
      let o1 := json_object_object_del o s.zio.name
      let s2 : Sys := if zio_write_pending q.2.zio then (zio_writer_schedule q.2).2 else q.2
      (q.1, s2, o1)
    | none => (0, s, o)

def zio_zloop_attach (s : Sys) : Int × Sys :=
  let s1 : Sys := { s with zio := { s.zio with zloop := true } }
  if zio_reader s1.zio then (0, (zio_reader_poll s1).2)
  else if zio_writer s1.zio then
    (0, if zio_write_pending s1.zio then (zio_writer_schedule s1).2 else s1)
  else (0, s1)

/-- A fresh system around an object: nothing sent, read, written or closed yet. -/
def Sys.init (zio : Zio) : Sys :=
  { zio := zio, sent := [], rd := [], wr := [], close_runs := 0, close_calls := 0, polled := false }

def zio_reader_create (name : String) (srcfd : Int) (send : SendFn) : Zio :=
  { zio_allocate name true send with srcfd := srcfd }

def zio_writer_create (name : String) (dstfd : Int) (send : SendFn) : Zio :=
  { zio_allocate name false send with dstfd := dstfd }

/-! ## The codec -/

/-- The output parameters `dp`, `eofp`, `namep` of `zio_json_decode`: what the three
pointers point to. -/
structure DecodeOut where
  data : Option (List Byte)
  eof : Bool
  name : Option String
  deriving DecidableEq, Repr

/-- The argument `o` is `none` for a NULL envelope; `out` is the content of the
output parameters before the call.  Result: return value and their content after. -/
def zio_json_decode (o : Option Envelope) (out : DecodeOut) : Int × DecodeOut :=
  match o with
  | none => (-1, out)
  | some env =>
    let name : Option String := (env.getLast?).map (fun p => p.1)
    let d : Option JObj := (env.getLast?).bind (fun p => p.2)
    let count := env.length
    if count ≠ 1 ∨ d = none ∨ name = none then (-1, out)
    else
      let eof := (util_json_object_get_boolean d "eof" false).2
      match util_json_object_get_base64 d "data" with
      | none => (-1, out)
      | some data => ((data.length : Nat), { data := some data, eof := eof, name := name })

def zio_json_encode (data : Option (List Byte)) (len : Nat) (eof : Bool) (name : String) :
    Envelope :=
  let d := zio_data_object data len
  let d1 := if eof then util_json_object_add_boolean d "eof" true else d
  json_object_object_add util_json_object_new_object name (some d1)

/-! ## Runs of the object under the event loop and its owner -/

/-- What can happen to an object: the loop reports `srcfd` readable or `dstfd`
writable, or the owner calls `zio_flush`, `zio_write_json` or one of the mutators of the
buffering mode. -/
inductive Event where
  | read_cb (r : ReadRes)
  | writer_cb (w : WriteRes)
  | flush
  | write_json (o : Envelope) (w : WriteRes)
  | set_unbuffered
  | set_buffered (buffersize : Nat)
  | set_line_buffered

/-- One event.  `zio_zloop_attach` registers `zio_read_cb` for readers only and
`zio_writer_schedule` registers `zio_writer_cb` for writers only, so a callback
of the other kind does not run. -/
def step (s : Sys) : Event → Option Sys
  | Event.read_cb r => if zio_reader s.zio then (zio_read_cb r s).map (fun q => q.2) else some s
  | Event.writer_cb w => if zio_writer s.zio then some (zio_writer_cb w s).2 else some s
  | Event.flush => (zio_flush s).map (fun q => q.2)
  | Event.write_json o w => some (zio_write_json s o w).2.1
  | Event.set_unbuffered => some { s with zio := (zio_set_unbuffered s.zio).2 }
  | Event.set_buffered n => some { s with zio := (zio_set_buffered s.zio n).2 }
  | Event.set_line_buffered => some { s with zio := (zio_set_line_buffered s.zio).2 }

def run (s : Sys) : List Event → Option Sys
  | [] => some s
  | e :: es => (step s e).bind (fun s1 => run s1 es)

/-- The payload a frame carries: the decoded `data` member of its single value, empty
when there is none. -/
def envelope_payload (o : Envelope) : List Byte :=
  match o with
  | [(_, d)] => (util_json_object_get_base64 d "data").getD []
  | _ => []

/-- Whether a frame carries `eof: true`. -/
def envelope_eof (o : Envelope) : Bool :=
  match o with
  | [(_, d)] => (util_json_object_get_boolean d "eof" false).2
  | _ => false

/-- The payloads of a list of frames, concatenated in order. -/
def payloads (l : List Envelope) : List Byte := (l.map envelope_payload).flatten

/-! ## Concrete objects used in the evaluations below -/

/-- A send callback that always succeeds. -/
def send_ok : SendFn := fun _ _ => 0

/-- A reader named "out" on descriptor 3, as `zio_reader_create` returns it. -/
def ex_reader : Sys := Sys.init (zio_reader_create "out" 3 send_ok)

/-- A writer named "in" on descriptor 4, as `zio_writer_create` returns it. -/
def ex_writer : Sys := Sys.init (zio_writer_create "in" 4 send_ok)

/-- The writer `ex_writer` with the octet "a" queued in its ring. -/
def ex_writer_queued : Sys := { ex_writer with zio := { ex_writer.zio with buf := [97] } }

/-- A reader switched to plain buffered mode (`zio_set_unbuffered`, then
`zio_set_buffered`) whose ring holds the single octet "a". -/
def ex_buffered_reader : Zio :=
  { (zio_set_buffered (zio_set_unbuffered (zio_reader_create "out" 3 send_ok)).2 4096).2 with
    buf := [97] }

/-- Content of the output parameters before a call of `zio_json_decode`. -/
def ex_out : DecodeOut := { data := none, eof := false, name := none }

/-! ## Relations and invariants used in the statements -/

/-- What a run of `zio_flush` may change: `t` differs from `s` only in the ring, the
flags word and the log of frames; of the flags only EOF_SENT may differ, and not when
EOF is clear; the payloads sent so far followed by the ring are the same octets. -/
def FlushRel (s t : Sys) : Prop :=
  ∃ (b : List Byte) (f : Nat) (snt : List Envelope),
    t = { s with zio := { s.zio with buf := b, flags := f }, sent := snt } ∧
    (∀ i, i ≠ 1 → f.testBit i = s.zio.flags.testBit i) ∧
    payloads snt ++ b = payloads s.sent ++ s.zio.buf ∧
    (zio_eof s.zio = false → f.testBit 1 = s.zio.flags.testBit 1)

/-- A reader on which nothing has happened yet: as `zio_reader_create` returns it,
in whatever buffering mode the mutators have put it. -/
def FreshReader (s : Sys) : Prop :=
  zio_reader s.zio = true ∧ zio_eof s.zio = false ∧ zio_eof_sent s.zio = false ∧
    s.zio.buf = [] ∧ s.sent = [] ∧ s.rd = []

/-- The invariant of a reader under the events: the payloads sent followed by the ring
are the octets read; EOF is set only together with EOF_SENT, a closed `srcfd` and an
empty ring; EOF_SENT is set only together with EOF. -/
def ReaderInv (s : Sys) : Prop :=
  zio_reader s.zio = true ∧ payloads s.sent ++ s.zio.buf = s.rd ∧
    (zio_eof s.zio = true → zio_eof_sent s.zio = true ∧ s.zio.srcfd < 0 ∧ s.zio.buf = []) ∧
    (zio_eof_sent s.zio = true → zio_eof s.zio = true)

/-- What a mutator of the buffering mode may change: the flags word only, and of it
neither EOF, EOF_SENT nor CLOSED. -/
def ConfigRel (z z1 : Zio) : Prop :=
  z1 = { z with flags := z1.flags } ∧ z1.flags.testBit 0 = z.flags.testBit 0 ∧
    z1.flags.testBit 1 = z.flags.testBit 1 ∧ z1.flags.testBit 5 = z.flags.testBit 5

/-- A zio on which `zio_close` has not run: a reader or a writer with CLOSED clear. -/
def FreshZio (s : Sys) : Prop :=
  (zio_reader s.zio = true ∨ zio_writer s.zio = true) ∧ zio_closed s.zio = false ∧
    s.close_runs = 0 ∧ s.close_calls = 0

/-- The invariant behind "closed at most once": once CLOSED is set the descriptor of the
object is gone, and `zio_close` has run once if CLOSED is set and never otherwise. -/
def CloseInv (s : Sys) : Prop :=
  (zio_reader s.zio = true ∨ zio_writer s.zio = true) ∧
    (zio_closed s.zio = true →
      (zio_reader s.zio = true → s.zio.srcfd < 0) ∧ (zio_writer s.zio = true → s.zio.dstfd < 0)) ∧
    s.close_runs = (if zio_closed s.zio = true then 1 else 0) ∧ s.close_calls ≤ s.close_runs

/-- Two systems that agree on everything `CloseInv` looks at. -/
def CloseSame (s t : Sys) : Prop :=
  t.zio.io_type = s.zio.io_type ∧ t.zio.srcfd = s.zio.srcfd ∧ t.zio.dstfd = s.zio.dstfd ∧
    zio_closed t.zio = zio_closed s.zio ∧ t.close_runs = s.close_runs ∧
    t.close_calls = s.close_calls

/-- A send callback that fails on the first frame and succeeds afterwards. -/
def send_fail_first : SendFn := fun sent _ =>
  match sent with
  | [] => -1
  | _ :: _ => 0

/-- A line-buffered reader, without EOF, whose ring holds the two complete lines "a\n"
and "b\n", with `send_fail_first` as its send callback. -/
def ex_two_lines : Sys :=
  Sys.init { zio_reader_create "out" 3 send_fail_first with buf := [97, 10, 98, 10] }

/-- A writer named "in" on descriptor 4, switched to unbuffered mode and attached to a
loop. -/
def ex_unbuffered_writer : Sys :=
  (zio_zloop_attach (Sys.init (zio_set_unbuffered (zio_writer_create "in" 4 send_ok)).2)).2

/-- The envelope `{"in": {"data": "YQ=="}}`, whose payload is "a". -/
def ex_env_a : Envelope := [("in", some [("data", JVal.str "YQ==".toList)])]

/-- The envelope `{"in": {"data": "Yg=="}}`, whose payload is "b". -/
def ex_env_b : Envelope := [("in", some [("data", JVal.str "Yg==".toList)])]

/-- The envelope `{"in": {"eof": true}}`. -/
def ex_env_eof : Envelope := [("in", some [("eof", JVal.bool true)])]

/-- The payload an envelope carries for the writer called `name`: the decoded `data`
member of the value under the key `name`, empty when there is none. -/
def payload_for (name : String) (o : Envelope) : List Byte :=
  match json_object_object_get_ex o name with
  | some x => (util_json_object_get_base64 x "data").getD []
  | none => []

/-- The payloads, in call order, that the envelopes of a run carry for the writer
called `name`. -/
def matched_payloads (name : String) : List Event → List Byte
  | [] => []
  | Event.write_json o _ :: es => payload_for name o ++ matched_payloads name es
  | _ :: es => matched_payloads name es

/-- A run of a writer made of `zio_write_json` calls and writable callbacks in which no
call of `zio_write_json` fails (no write error other than would-block, no overflow of
the ring). -/
def NoFailure (s : Sys) : List Event → Prop
  | [] => True
  | Event.write_json o w :: es =>
    0 ≤ (zio_write_json s o w).1 ∧ NoFailure (zio_write_json s o w).2.1 es
  | Event.writer_cb w :: es => NoFailure (zio_writer_cb w s).2 es
  | _ :: _ => False

/-- The frames sent so far carry `eof: true` at most once, and then on the last frame:
none of them does while EOF is clear, and the last one alone does once EOF is set. -/
def EofLast (s : Sys) : Prop :=
  (zio_eof s.zio = false → ∀ f ∈ s.sent, envelope_eof f = false) ∧
    (zio_eof s.zio = true → ∃ init fr, s.sent = init ++ [fr] ∧ envelope_eof fr = true ∧
      ∀ f ∈ init, envelope_eof f = false)

/-- The envelope `{"other": {"data": "eA=="}}`, addressed to another name. -/
def ex_env_other : Envelope := [("other", some [("data", JVal.str "eA==".toList)])]

/-- A line-buffered reader with EOF set (and EOF_SENT clear) whose ring holds "there",
a partial line. -/
def ex_reader_partial : Sys :=
  { ex_reader with zio := zio_set_eof { ex_reader.zio with buf := [116, 104, 101, 114, 101] } }

/-- The writer `ex_writer` attached to a loop. -/
def ex_writer_attached : Sys := (zio_zloop_attach ex_writer).2

/-- The envelope `{"in": {"data": "Yg==", "eof": true}}`: the payload "b" with the EOF
mark. -/
def ex_env_b_eof : Envelope :=
  [("in", some [("data", JVal.str "Yg==".toList), ("eof", JVal.bool true)])]

/-- The invariant of the flags word: LINE_BUFFERED implies BUFFERED. -/
def ModeInv (z : Zio) : Prop := zio_line_buffered z = true → zio_buffered z = true

/-- Two objects in the same buffering mode. -/
def ModeSame (z z1 : Zio) : Prop :=
  zio_buffered z1 = zio_buffered z ∧ zio_line_buffered z1 = zio_line_buffered z

/-! ## Lemmas on the flags word -/

theorem and_two_pow_ne_zero (f i : Nat) : (f &&& 2 ^ i != 0) = f.testBit i := by
  rw [Nat.and_two_pow]
  cases f.testBit i <;> simp

theorem zio_eof_eq (z : Zio) : zio_eof z = z.flags.testBit 0 := and_two_pow_ne_zero z.flags 0

theorem zio_eof_sent_eq (z : Zio) : zio_eof_sent z = z.flags.testBit 1 :=
  and_two_pow_ne_zero z.flags 1

theorem zio_buffered_eq (z : Zio) : zio_buffered z = z.flags.testBit 2 :=
  and_two_pow_ne_zero z.flags 2

theorem zio_line_buffered_eq (z : Zio) : zio_line_buffered z = z.flags.testBit 4 :=
  and_two_pow_ne_zero z.flags 4

theorem zio_closed_eq (z : Zio) : zio_closed z = z.flags.testBit 5 :=
  and_two_pow_ne_zero z.flags 5

/-! ## Lemmas on base64 -/

theorem b64val_b64char : ∀ n, n < 64 → b64val (b64char n) = some n := by decide

theorem b64char_ne_pad : ∀ n, n < 64 → b64char n ≠ '=' := by decide

theorem byteOfNat_val (a : Byte) (n : Nat) (h : n = a.val) : byteOfNat n = a := by
  subst h
  apply Fin.ext
  simp [byteOfNat, Nat.mod_eq_of_lt a.isLt]

/-- Decoding undoes encoding, for every octet string. -/
theorem b64decode_b64encode (l : List Byte) : b64decode (b64encode l) = some l := by
  induction l using b64encode.induct with
  | case1 => simp [b64encode, b64decode]
  | case2 a =>
    have h0 := b64val_b64char (a.val / 4) (by omega)
    have h1 := b64val_b64char (a.val % 4 * 16) (by omega)
    simp only [b64encode, b64decode, h0, h1]
    simp
    exact byteOfNat_val a _ (by omega)
  | case3 a b =>
    have h0 := b64val_b64char (a.val / 4) (by omega)
    have h1 := b64val_b64char (a.val % 4 * 16 + b.val / 16) (by omega)
    have h2 := b64val_b64char (b.val % 16 * 4) (by omega)
    have n2 := b64char_ne_pad (b.val % 16 * 4) (by omega)
    simp only [b64encode, b64decode, h0, h1, h2]
    simp [n2]
    exact ⟨byteOfNat_val a _ (by omega), byteOfNat_val b _ (by omega)⟩
  | case4 a b c rest ih =>
    have h0 := b64val_b64char (a.val / 4) (by omega)
    have h1 := b64val_b64char (a.val % 4 * 16 + b.val / 16) (by omega)
    have h2 := b64val_b64char (b.val % 16 * 4 + c.val / 64) (by omega)
    have h3 := b64val_b64char (c.val % 64) (by omega)
    have n2 := b64char_ne_pad (b.val % 16 * 4 + c.val / 64) (by omega)
    have n3 := b64char_ne_pad (c.val % 64) (by omega)
    simp only [b64encode, b64decode, h0, h1, h2, h3, ih]
    simp [n2, n3]
    exact ⟨byteOfNat_val a _ (by omega), byteOfNat_val b _ (by omega),
      byteOfNat_val c _ (by omega)⟩

/-! ## Lemmas on `zio_close`, the ring and the write path -/

theorem zio_close_zio (s : Sys) :
    (zio_close s).2.zio =
      { (if zio_reader s.zio then { s.zio with srcfd := -1 }
          else if zio_writer s.zio then { s.zio with dstfd := -1 } else s.zio) with
        flags := s.zio.flags ||| ZIO_CLOSED } := by
  unfold zio_close
  cases hc : s.zio.close <;> by_cases h1 : zio_reader s.zio = true <;>
    by_cases h2 : zio_writer s.zio = true <;> simp [hc, h1, h2]

theorem zio_close_buf (s : Sys) : (zio_close s).2.zio.buf = s.zio.buf := by
  rw [zio_close_zio]; split_ifs <;> rfl

theorem zio_close_flags (s : Sys) : (zio_close s).2.zio.flags = s.zio.flags ||| ZIO_CLOSED := by
  rw [zio_close_zio]

theorem zio_close_io_type (s : Sys) : (zio_close s).2.zio.io_type = s.zio.io_type := by
  rw [zio_close_zio]; split_ifs <;> rfl

theorem zio_close_logs (s : Sys) :
    (zio_close s).2.sent = s.sent ∧ (zio_close s).2.rd = s.rd ∧ (zio_close s).2.wr = s.wr ∧
      (zio_close s).2.polled = s.polled ∧ (zio_close s).2.close_runs = s.close_runs + 1 := by
  unfold zio_close
  cases hc : s.zio.close <;> simp [hc] <;> split_ifs <;> simp_all

theorem cbuf_write_fits (cb src : List Byte) (h : src.length ≤ cbuf_free cb) :
    cbuf_write cb src = ((src.length : Int), cb ++ src) := by
  have : ¬ (src.length > cbuf_free cb) := by omega
  simp only [cbuf_write, this, if_false]

theorem cbuf_write_overflow (cb src : List Byte) (h : cbuf_free cb < src.length) :
    cbuf_write cb src = (-1, cb) := by
  simp only [cbuf_write, gt_iff_lt, h, if_true]

theorem zio_write_data_enqueue_fits (s : Sys) (buf : List Byte) (len n : Nat)
    (h : len - n ≤ cbuf_free s.zio.buf) :
    zio_write_data_enqueue s buf len n =
      (0, { s with zio := { s.zio with buf := s.zio.buf ++ (buf.drop n).take (len - n) } }) := by
  unfold zio_write_data_enqueue
  by_cases h0 : len - n = 0
  · simp [h0]
  · have hl : ((buf.drop n).take (len - n)).length ≤ cbuf_free s.zio.buf := by
      rw [List.length_take]; omega
    rw [cbuf_write_fits _ _ hl]
    have : ¬ ((((buf.drop n).take (len - n)).length : Nat) : Int) < 0 := by omega
    simp only [h0, ne_eq, not_false_eq_true, if_true, this, if_false]

/-- A failed read makes `zio_read_cb` return 0 with nothing changed, whatever the
`errno`. -/
theorem zio_read_cb_of_read_error (s : Sys) (r : ReadRes) (e : Nat)
    (h : fd_read s.zio.srcfd r = ReadRes.err e) : zio_read_cb r s = some (0, s) := by
  simp [zio_read_cb, cbuf_write_from_fd, h]

theorem zio_writer_cb_of_eagain (s : Sys) (w : WriteRes)
    (h : fd_write s.zio.dstfd s.zio.buf.length w = WriteRes.err EAGAIN) :
    zio_writer_cb w s = (0, s) := by
  simp [zio_writer_cb, cbuf_read_to_fd, h]

theorem zio_write_data_of_eagain (s : Sys) (buf : List Byte) (len : Nat) (w : WriteRes)
    (he : zio_buffer_empty s.zio = true)
    (hw : fd_write s.zio.dstfd len w = WriteRes.err EAGAIN)
    (hfit : len ≤ cbuf_free s.zio.buf) :
    0 ≤ (zio_write_data s buf len w).1 ∧
      (zio_write_data s buf len w).2.zio.buf = s.zio.buf ++ buf.take len ∧
      (zio_write_data s buf len w).2.wr = s.wr := by
  simp only [zio_write_data, he, hw, if_true, zio_write_data_written]
  by_cases h0 : 0 = len
  · subst h0
    cases h : zio_eof s.zio <;> simp [h, zio_close_buf, (zio_close_logs s).2.2.1]
  · rw [if_neg h0, zio_write_data_enqueue_fits s buf len 0 (by omega)]
    simp

/-- What `zio_data_to_flush` computes in plain buffered mode with a non-empty ring: all
of the ring when EOF is set or `used <= buffersize`, nothing otherwise. -/
theorem zio_data_to_flush_buffered (z : Zio) (hb : zio_buffered z = true)
    (hl : zio_line_buffered z = false) (hu : 0 < cbuf_used z.buf) :
    zio_data_to_flush z =
      if zio_eof z = true ∨ cbuf_used z.buf ≤ z.buffersize then cbuf_used z.buf else 0 := by
  have : ¬ cbuf_used z.buf = 0 := by omega
  simp [zio_data_to_flush, zio_buffer_used, hb, hl, this]

/-- An envelope with one key whose value has no `data` member is rejected by
`zio_json_decode`, with the outputs untouched. -/
theorem zio_json_decode_without_data (name : String) (d : JObj) (out : DecodeOut)
    (h : d.lookup "data" = none) : zio_json_decode (some [(name, some d)]) out = (-1, out) := by
  simp [zio_json_decode, util_json_object_get_base64, h]

/-! ## Lemmas on the reader side: `zio_read`, `zio_send`, `zio_flush` -/

theorem eof_beq_data : ("eof" == "data") = false := by decide

theorem data_beq_eof : ("data" == "eof") = false := by decide

/-- The complete lines of a ring are part of the ring. -/
theorem cbuf_lines_used_le (cb : List Byte) : cbuf_lines_used cb ≤ cb.length := by
  induction cb with
  | nil => exact Nat.le_refl _
  | cons b rest ih =>
    simp only [cbuf_lines_used, List.length_cons]
    split_ifs <;> omega

/-- Once the complete lines are taken out, what is left holds no complete line. -/
theorem cbuf_lines_used_drop (cb : List Byte) :
    cbuf_lines_used (cb.drop (cbuf_lines_used cb)) = 0 := by
  induction cb with
  | nil => rfl
  | cons b rest ih =>
    by_cases h1 : 0 < cbuf_lines_used rest
    · have : cbuf_lines_used (b :: rest) = cbuf_lines_used rest + 1 := by
        simp only [cbuf_lines_used, if_pos h1]
      rw [this, List.drop_succ_cons]
      exact ih
    · have h0 : cbuf_lines_used rest = 0 := by omega
      by_cases h2 : b = NEWLINE
      · have : cbuf_lines_used (b :: rest) = 1 := by
          simp only [cbuf_lines_used, if_neg h1, if_pos h2]
        rw [this, List.drop_succ_cons, List.drop_zero]
        exact h0
      · have : cbuf_lines_used (b :: rest) = 0 := by
          simp only [cbuf_lines_used, if_neg h1, if_neg h2]
        rw [this, List.drop_zero]
        exact this

/-- What `zio_read` does: it splits the ring into the octets it hands out and the rest,
returns the number handed out, and changes nothing else. -/
theorem zio_read_spec (z : Zio) (len : Nat) :
    ∃ out rest : List Byte, zio_read z len = ((out.length : Int), out, { z with buf := rest }) ∧
      out ++ rest = z.buf := by
  unfold zio_read
  by_cases hm : (zio_line_buffered z && !zio_eof z) = true
  · rw [if_pos hm]
    unfold cbuf_read_line
    rw [if_pos rfl]
    have hk : cbuf_lines_used (z.buf.take len) ≤ z.buf.length :=
      le_trans (cbuf_lines_used_le _) (by rw [List.length_take]; omega)
    refine ⟨z.buf.take (cbuf_lines_used (z.buf.take len)),
      z.buf.drop (cbuf_lines_used (z.buf.take len)), ?_, List.take_append_drop _ _⟩
    have : (z.buf.take (cbuf_lines_used (z.buf.take len))).length =
        cbuf_lines_used (z.buf.take len) := by
      rw [List.length_take]; omega
    simp only [this]
  · rw [if_neg hm]
    exact ⟨z.buf.take len, z.buf.drop len, rfl, List.take_append_drop _ _⟩

/-- With EOF set, or outside line mode, `zio_read` of more than the ring holds takes
the whole ring. -/
theorem zio_read_all (z : Zio) (len : Nat) (hm : (zio_line_buffered z && !zio_eof z) = false)
    (hlen : z.buf.length ≤ len) :
    zio_read z len = ((z.buf.length : Int), z.buf, { z with buf := [] }) := by
  unfold zio_read cbuf_read
  rw [hm]
  simp [List.take_of_length_le hlen, List.drop_of_length_le hlen]

theorem envelope_payload_create (z : Zio) (p : Option (List Byte)) (len : Nat) :
    envelope_payload (zio_json_object_create z p len).1 =
      match p with
      | some bytes => bytes.take len
      | none => [] := by
  cases p with
  | none =>
    by_cases he : zio_eof_pending z = true <;>
    simp [envelope_payload, zio_json_object_create, zio_data_object, he,
      util_json_object_add_boolean, json_object_object_add, util_json_object_new_object,
      util_json_object_get_base64, List.lookup_cons, eof_beq_data, data_beq_eof]
  | some bytes =>
    by_cases hl : len = 0 <;> by_cases he : zio_eof_pending z = true <;>
    simp [envelope_payload, zio_json_object_create, zio_data_object, he, hl,
      util_json_object_add_boolean, util_json_object_add_base64, json_object_object_add,
      util_json_object_new_object, util_json_object_get_base64, List.lookup_cons,
      eof_beq_data, data_beq_eof, b64decode_b64encode]

theorem envelope_eof_create (z : Zio) (p : Option (List Byte)) (len : Nat) :
    envelope_eof (zio_json_object_create z p len).1 = zio_eof_pending z := by
  cases p with
  | none =>
    by_cases he : zio_eof_pending z = true <;>
    simp [envelope_eof, zio_json_object_create, zio_data_object, he,
      util_json_object_add_boolean, json_object_object_add, util_json_object_new_object,
      util_json_object_get_boolean, List.lookup_cons, eof_beq_data, data_beq_eof]
  | some bytes =>
    by_cases hl : len = 0 <;> by_cases he : zio_eof_pending z = true <;>
    simp [envelope_eof, zio_json_object_create, zio_data_object, he, hl,
      util_json_object_add_boolean, util_json_object_add_base64, json_object_object_add,
      util_json_object_new_object, util_json_object_get_boolean, List.lookup_cons,
      eof_beq_data, data_beq_eof]

theorem zio_json_object_create_zio (z : Zio) (p : Option (List Byte)) (len : Nat) :
    (zio_json_object_create z p len).2 =
      { z with flags := if zio_eof_pending z then z.flags ||| ZIO_EOF_SENT else z.flags } := by
  unfold zio_json_object_create
  by_cases he : zio_eof_pending z = true <;> simp [he]

/-- What `zio_send` does to the system: one frame more in the log, EOF_SENT set when
EOF was pending, nothing else. -/
theorem zio_send_sys (s : Sys) (p : Option (List Byte)) (len : Nat) :
    (zio_send s p len).2 =
      { s with
        zio := { s.zio with
          flags := if zio_eof_pending s.zio then s.zio.flags ||| ZIO_EOF_SENT else s.zio.flags }
        sent := s.sent ++ [(zio_json_object_create s.zio p len).1] } := by
  unfold zio_send
  simp only [zio_json_object_create_zio]

theorem payloads_append (l : List Envelope) (o : Envelope) :
    payloads (l ++ [o]) = payloads l ++ envelope_payload o := by
  simp [payloads]

/-- The rule of the loop of `zio_flush`: a property `I` that every pass which goes on
re-establishes, and a property `Q` that holds wherever the loop is left, give `Q` for the
state the loop returns. -/
theorem zio_flush_loop_rule (I Q : Sys → Prop)
    (hcond : ∀ s, I s → zio_data_to_flush s.zio = 0 → zio_eof s.zio = false → Q s)
    (hpark : ∀ s, I s → 0 < zio_data_to_flush s.zio →
      (zio_read s.zio (zio_data_to_flush s.zio + 1)).1 ≤ 0 →
      Q { s with zio := (zio_read s.zio (zio_data_to_flush s.zio + 1)).2.2 })
    (hdata : ∀ s, I s → 0 < zio_data_to_flush s.zio →
      0 < (zio_read s.zio (zio_data_to_flush s.zio + 1)).1 →
      (zio_eof_sent (zio_send { s with zio := (zio_read s.zio (zio_data_to_flush s.zio + 1)).2.2 }
          (some (zio_read s.zio (zio_data_to_flush s.zio + 1)).2.1)
          (zio_read s.zio (zio_data_to_flush s.zio + 1)).1.toNat).2.zio = true →
        Q (zio_send { s with zio := (zio_read s.zio (zio_data_to_flush s.zio + 1)).2.2 }
          (some (zio_read s.zio (zio_data_to_flush s.zio + 1)).2.1)
          (zio_read s.zio (zio_data_to_flush s.zio + 1)).1.toNat).2) ∧
      (zio_eof_sent (zio_send { s with zio := (zio_read s.zio (zio_data_to_flush s.zio + 1)).2.2 }
          (some (zio_read s.zio (zio_data_to_flush s.zio + 1)).2.1)
          (zio_read s.zio (zio_data_to_flush s.zio + 1)).1.toNat).2.zio = false →
        I (zio_send { s with zio := (zio_read s.zio (zio_data_to_flush s.zio + 1)).2.2 }
          (some (zio_read s.zio (zio_data_to_flush s.zio + 1)).2.1)
          (zio_read s.zio (zio_data_to_flush s.zio + 1)).1.toNat).2))
    (heof : ∀ s, I s → zio_data_to_flush s.zio = 0 → zio_eof s.zio = true →
      (zio_eof_sent (zio_send s none 0).2.zio = true → Q (zio_send s none 0).2) ∧
      (zio_eof_sent (zio_send s none 0).2.zio = false → I (zio_send s none 0).2)) :
    ∀ (fuel : Nat) (rc : Int) (s : Sys) (r : Int × Sys),
      I s → zio_flush_loop fuel rc s = some r → Q r.2 := by
  intro fuel
  induction fuel with
  | zero => intro rc s r _ h; simp [zio_flush_loop] at h
  | succ n ih =>
    intro rc s r hI h
    rw [zio_flush_loop] at h
    dsimp only at h
    by_cases hlen : zio_data_to_flush s.zio > 0
    · have hc : zio_data_to_flush s.zio > 0 ∨ zio_eof s.zio = true := Or.inl hlen
      rw [if_pos hc, if_pos hlen] at h
      by_cases hn : (zio_read s.zio (zio_data_to_flush s.zio + 1)).1 ≤ 0
      · rw [if_pos hn] at h
        cases h
        exact hpark s hI hlen hn
      · rw [if_neg hn] at h
        have hn2 : 0 < (zio_read s.zio (zio_data_to_flush s.zio + 1)).1 := by omega
        have hd := hdata s hI hlen hn2
        by_cases hs : zio_eof_sent (zio_send
            { s with zio := (zio_read s.zio (zio_data_to_flush s.zio + 1)).2.2 }
            (some (zio_read s.zio (zio_data_to_flush s.zio + 1)).2.1)
            (zio_read s.zio (zio_data_to_flush s.zio + 1)).1.toNat).2.zio = true
        · rw [if_pos hs] at h
          cases h
          exact hd.1 hs
        · rw [if_neg hs] at h
          exact ih _ _ _ (hd.2 (by simpa using hs)) h
    · have hz : zio_data_to_flush s.zio = 0 := by omega
      by_cases he : zio_eof s.zio = true
      · have hc : zio_data_to_flush s.zio > 0 ∨ zio_eof s.zio = true := Or.inr he
        rw [if_pos hc, if_neg hlen] at h
        have hd := heof s hI hz he
        by_cases hs : zio_eof_sent (zio_send s none 0).2.zio = true
        · rw [if_pos hs] at h
          cases h
          exact hd.1 hs
        · rw [if_neg hs] at h
          exact ih _ _ _ (hd.2 (by simpa using hs)) h
      · have hc : ¬ (zio_data_to_flush s.zio > 0 ∨ zio_eof s.zio = true) := by
          rintro (h1 | h1)
          · exact hlen h1
          · exact he h1
        rw [if_neg hc] at h
        cases h
        exact hcond s hI hz (by simpa using he)

theorem ZIO_EOF_testBit (i : Nat) : ZIO_EOF.testBit i = decide (0 = i) :=
  @Nat.testBit_two_pow 0 i

theorem ZIO_EOF_SENT_testBit (i : Nat) : ZIO_EOF_SENT.testBit i = decide (1 = i) :=
  @Nat.testBit_two_pow 1 i

theorem ZIO_BUFFERED_testBit (i : Nat) : ZIO_BUFFERED.testBit i = decide (2 = i) :=
  @Nat.testBit_two_pow 2 i

theorem ZIO_LINE_BUFFERED_testBit (i : Nat) : ZIO_LINE_BUFFERED.testBit i = decide (4 = i) :=
  @Nat.testBit_two_pow 4 i

theorem ZIO_CLOSED_testBit (i : Nat) : ZIO_CLOSED.testBit i = decide (5 = i) :=
  @Nat.testBit_two_pow 5 i

theorem ZIO_VERBOSE_testBit (i : Nat) : ZIO_VERBOSE.testBit i = decide (6 = i) :=
  @Nat.testBit_two_pow 6 i

theorem zio_data_to_flush_eq (z : Zio) :
    zio_data_to_flush z = 0 ∨ zio_data_to_flush z = z.buf.length := by
  unfold zio_data_to_flush zio_buffer_used cbuf_used
  dsimp only
  split_ifs <;> simp

theorem zio_data_to_flush_of_eof (z : Zio) (h : zio_eof z = true) :
    zio_data_to_flush z = z.buf.length := by
  unfold zio_data_to_flush zio_buffer_used cbuf_used
  dsimp only
  split_ifs with h1 h2 h3
  · omega
  · rfl
  · rfl
  · simp [h] at h3

theorem zio_send_buf (s : Sys) (p : Option (List Byte)) (len : Nat) :
    (zio_send s p len).2.zio.buf = s.zio.buf := by
  rw [zio_send_sys]

theorem zio_send_eof_sent_of_pending (s : Sys) (p : Option (List Byte)) (len : Nat)
    (h : zio_eof_pending s.zio = true) : zio_eof_sent (zio_send s p len).2.zio = true := by
  rw [zio_send_sys]
  simp [h, zio_eof_sent_eq, ZIO_EOF_SENT_testBit]

/-- The loop of `zio_flush` ends: fuel for `used + 2` evaluations of its condition is
enough for it to return. -/
theorem zio_flush_loop_returns :
    ∀ (fuel : Nat) (rc : Int) (s : Sys), s.zio.buf.length + 2 ≤ fuel →
      ∃ r, zio_flush_loop fuel rc s = some r := by
  intro fuel
  induction fuel with
  | zero => intro rc s h; omega
  | succ n ih =>
    intro rc s hf
    rw [zio_flush_loop]
    dsimp only
    by_cases hlen : zio_data_to_flush s.zio > 0
    · have hc : zio_data_to_flush s.zio > 0 ∨ zio_eof s.zio = true := Or.inl hlen
      rw [if_pos hc, if_pos hlen]
      by_cases hn : (zio_read s.zio (zio_data_to_flush s.zio + 1)).1 ≤ 0
      · rw [if_pos hn]
        exact ⟨_, rfl⟩
      · rw [if_neg hn]
        split_ifs
        · exact ⟨_, rfl⟩
        · apply ih
          obtain ⟨out, rest, hr, hsplit⟩ := zio_read_spec s.zio (zio_data_to_flush s.zio + 1)
          rw [hr] at hn ⊢
          rw [zio_send_buf]
          have h1 : 0 < out.length := by
            simp only [not_le] at hn
            omega
          have h2 : out.length + rest.length = s.zio.buf.length := by
            rw [← hsplit, List.length_append]
          show rest.length + 2 ≤ n
          omega
    · by_cases he : zio_eof s.zio = true
      · have hc : zio_data_to_flush s.zio > 0 ∨ zio_eof s.zio = true := Or.inr he
        rw [if_pos hc, if_neg hlen]
        have hz : s.zio.buf.length = 0 := by
          rw [← zio_data_to_flush_of_eof s.zio he]; omega
        have hp : zio_eof_pending s.zio = true := by
          simp [zio_eof_pending, he, cbuf_used, hz]
        rw [if_pos (zio_send_eof_sent_of_pending s none 0 hp)]
        exact ⟨_, rfl⟩
      · have hc : ¬ (zio_data_to_flush s.zio > 0 ∨ zio_eof s.zio = true) := by
          rintro (h1 | h1)
          · exact hlen h1
          · exact he h1
        rw [if_neg hc]
        exact ⟨_, rfl⟩

/-- The function `zio_flush` returns, from every state. -/
theorem zio_flush_returns (s : Sys) : ∃ r, zio_flush s = some r :=
  zio_flush_loop_returns _ 0 s (Nat.le_refl _)

theorem FlushRel.flush_refl (s : Sys) : FlushRel s s :=
  ⟨s.zio.buf, s.zio.flags, s.sent, rfl, fun _ _ => rfl, rfl, fun _ => rfl⟩

theorem FlushRel.trans {s t u : Sys} (h1 : FlushRel s t) (h2 : FlushRel t u) : FlushRel s u := by
  obtain ⟨b1, f1, n1, e1, hb1, hp1, he1⟩ := h1
  obtain ⟨b2, f2, n2, e2, hb2, hp2, he2⟩ := h2
  subst e1
  refine ⟨b2, f2, n2, ?_, ?_, ?_, ?_⟩
  · rw [e2]
  · intro i hi
    rw [hb2 i hi]
    exact hb1 i hi
  · rw [hp2]
    exact hp1
  · intro he
    have h0 : f1.testBit 0 = false := by
      rw [hb1 0 (by decide), ← zio_eof_eq]; exact he
    rw [he2 (by rw [zio_eof_eq]; exact h0)]
    exact he1 he

/-- One pass of the loop that reads octets and sends them. -/
theorem FlushRel.data_pass (t : Sys) (len : Nat) :
    FlushRel t (zio_send { t with zio := (zio_read t.zio len).2.2 }
      (some (zio_read t.zio len).2.1) (zio_read t.zio len).1.toNat).2 := by
  obtain ⟨out, rest, hr, hsplit⟩ := zio_read_spec t.zio len
  rw [hr]
  rw [zio_send_sys]
  refine ⟨rest, _, _, rfl, ?_, ?_, ?_⟩
  · intro i hi
    dsimp only
    split_ifs
    · simp [Nat.testBit_or, ZIO_EOF_SENT_testBit, Ne.symm hi]
    · rfl
  · dsimp only
    rw [payloads_append, envelope_payload_create]
    simp [← hsplit]
  · intro he
    have : zio_eof_pending { t.zio with buf := rest } = false := by
      have h0 : zio_eof { t.zio with buf := rest } = false := he
      simp [zio_eof_pending, h0]
    dsimp only
    rw [this]
    simp

/-- The pass of the loop that sends a frame without data. -/
theorem FlushRel.eof_pass (t : Sys) : FlushRel t (zio_send t none 0).2 := by
  rw [zio_send_sys]
  refine ⟨t.zio.buf, _, _, rfl, ?_, ?_, ?_⟩
  · intro i hi
    split_ifs
    · simp [Nat.testBit_or, ZIO_EOF_SENT_testBit, Ne.symm hi]
    · rfl
  · rw [payloads_append, envelope_payload_create]
    simp
  · intro he
    have : zio_eof_pending t.zio = false := by simp [zio_eof_pending, he]
    rw [this]
    simp

theorem FlushRel.eof_eq {s t : Sys} (h : FlushRel s t) : zio_eof t.zio = zio_eof s.zio := by
  obtain ⟨b, f, n, e, hb, _, _⟩ := h
  subst e
  rw [zio_eof_eq, zio_eof_eq]
  exact hb 0 (by decide)

/-- What `zio_flush` does: see `FlushRel`; and when EOF is set it leaves EOF_SENT set and
the ring empty. -/
theorem zio_flush_spec (s : Sys) (r : Int × Sys) (h : zio_flush s = some r) :
    FlushRel s r.2 ∧ (zio_eof s.zio = true → zio_eof_sent r.2.zio = true ∧ r.2.zio.buf = []) := by
  refine zio_flush_loop_rule (fun t => FlushRel s t)
    (fun t => FlushRel s t ∧ (zio_eof s.zio = true → zio_eof_sent t.zio = true ∧ t.zio.buf = []))
    ?_ ?_ ?_ ?_ _ 0 s r (FlushRel.flush_refl s) h
  · intro t hI _ he
    refine ⟨hI, fun hs => ?_⟩
    rw [← hI.eof_eq, he] at hs
    cases hs
  · intro t hI hlen hn
    obtain ⟨out, rest, hr, hsplit⟩ := zio_read_spec t.zio (zio_data_to_flush t.zio + 1)
    have hnil : out = [] := by
      rw [hr] at hn
      have : out.length = 0 := by
        simp only at hn
        omega
      exact List.length_eq_zero.mp this
    have hst : ({ t with zio := (zio_read t.zio (zio_data_to_flush t.zio + 1)).2.2 } : Sys) = t := by
      rw [hr]
      subst hnil
      simp at hsplit
      subst hsplit
      rfl
    rw [hst]
    refine ⟨hI, fun hs => ?_⟩
    exfalso
    have het : zio_eof t.zio = true := by rw [hI.eof_eq]; exact hs
    have hm : (zio_line_buffered t.zio && !zio_eof t.zio) = false := by simp [het]
    have hd : zio_data_to_flush t.zio = t.zio.buf.length := zio_data_to_flush_of_eof t.zio het
    rw [zio_read_all t.zio _ hm (by omega)] at hn
    simp only at hn
    omega
  · intro t hI hlen hn
    have hstep := FlushRel.data_pass t (zio_data_to_flush t.zio + 1)
    refine ⟨fun hsent => ⟨hI.trans hstep, fun hs => ⟨hsent, ?_⟩⟩, fun _ => hI.trans hstep⟩
    have het : zio_eof t.zio = true := by rw [hI.eof_eq]; exact hs
    have hm : (zio_line_buffered t.zio && !zio_eof t.zio) = false := by simp [het]
    have hd : zio_data_to_flush t.zio = t.zio.buf.length := zio_data_to_flush_of_eof t.zio het
    rw [zio_send_buf, zio_read_all t.zio _ hm (by omega)]
  · intro t hI hz he
    have hstep := FlushRel.eof_pass t
    refine ⟨fun hsent => ⟨hI.trans hstep, fun _ => ⟨hsent, ?_⟩⟩, fun _ => hI.trans hstep⟩
    rw [zio_send_buf]
    have hd : zio_data_to_flush t.zio = t.zio.buf.length := zio_data_to_flush_of_eof t.zio he
    exact List.length_eq_zero.mp (by omega)

/-! ## The reader under the events -/

theorem FlushRel.frame {s t : Sys} (h : FlushRel s t) :
    t.zio.io_type = s.zio.io_type ∧ t.zio.srcfd = s.zio.srcfd ∧ t.zio.dstfd = s.zio.dstfd ∧
      t.zio.close = s.zio.close ∧ t.rd = s.rd ∧ t.wr = s.wr ∧ t.close_runs = s.close_runs ∧
      t.close_calls = s.close_calls ∧ t.polled = s.polled := by
  obtain ⟨b, f, n, e, _, _, _⟩ := h
  subst e
  exact ⟨rfl, rfl, rfl, rfl, rfl, rfl, rfl, rfl, rfl⟩

theorem FlushRel.payloads_eq {s t : Sys} (h : FlushRel s t) :
    payloads t.sent ++ t.zio.buf = payloads s.sent ++ s.zio.buf := by
  obtain ⟨b, f, n, e, _, hp, _⟩ := h
  subst e
  exact hp

theorem FlushRel.testBit_eq {s t : Sys} (h : FlushRel s t) (i : Nat) (hi : i ≠ 1) :
    t.zio.flags.testBit i = s.zio.flags.testBit i := by
  obtain ⟨b, f, n, e, hb, _, _⟩ := h
  subst e
  exact hb i hi

theorem FlushRel.eof_sent_eq {s t : Sys} (h : FlushRel s t) (he : zio_eof s.zio = false) :
    zio_eof_sent t.zio = zio_eof_sent s.zio := by
  obtain ⟨b, f, n, e, _, _, hs⟩ := h
  subst e
  rw [zio_eof_sent_eq, zio_eof_sent_eq]
  exact hs he

theorem zio_eof_set_eof (z : Zio) : zio_eof (zio_set_eof z) = true := by
  rw [zio_eof_eq]
  show (z.flags ||| ZIO_EOF).testBit 0 = true
  rw [Nat.testBit_or, ZIO_EOF_testBit]
  simp

theorem testBit_or_CLOSED_ne (f i : Nat) (h : i ≠ 5) :
    (f ||| ZIO_CLOSED).testBit i = f.testBit i := by
  rw [Nat.testBit_or, ZIO_CLOSED_testBit]
  simp [Ne.symm h]

theorem zio_eof_close (s : Sys) : zio_eof (zio_close s).2.zio = zio_eof s.zio := by
  rw [zio_eof_eq, zio_eof_eq, zio_close_flags, testBit_or_CLOSED_ne _ _ (by decide)]

theorem zio_eof_sent_close (s : Sys) :
    zio_eof_sent (zio_close s).2.zio = zio_eof_sent s.zio := by
  rw [zio_eof_sent_eq, zio_eof_sent_eq, zio_close_flags, testBit_or_CLOSED_ne _ _ (by decide)]

theorem zio_closed_close (s : Sys) : zio_closed (zio_close s).2.zio = true := by
  rw [zio_closed_eq, zio_close_flags, Nat.testBit_or, ZIO_CLOSED_testBit]
  simp

theorem zio_reader_not_writer (z : Zio) (h : zio_reader z = true) : zio_writer z = false := by
  simp only [zio_reader, zio_writer, ZIO_READER, ZIO_WRITER, beq_iff_eq] at h ⊢
  rw [h]
  decide

theorem zio_read_cb_ok (s : Sys) (r : ReadRes) (bs : List Byte)
    (h : fd_read s.zio.srcfd r = ReadRes.ok bs) :
    zio_read_cb r s =
      match zio_flush
        (if bs = [] then
          { s with zio := zio_set_eof { s.zio with buf := s.zio.buf ++ bs }, rd := s.rd ++ bs }
        else { s with zio := { s.zio with buf := s.zio.buf ++ bs }, rd := s.rd ++ bs }) with
      | none => none
      | some f =>
        if zio_eof_sent f.2.zio then some (zio_close { f.2 with polled := false })
        else some (0, f.2) := by
  simp only [zio_read_cb, cbuf_write_from_fd, h]
  have h1 : ¬ ((bs.length : Int) < 0) := by omega
  rw [if_neg h1]
  by_cases hb : bs = []
  · subst hb
    simp
  · have : ¬ ((bs.length : Int) = 0) := by
      intro h0
      exact hb (List.length_eq_zero.mp (by omega))
    simp [hb, this]

theorem fd_read_ok {fd : Int} {r : ReadRes} {bs : List Byte}
    (h : fd_read fd r = ReadRes.ok bs) : ¬ fd < 0 := by
  intro hlt
  simp [fd_read, hlt] at h

theorem ReaderInv.flush {s : Sys} {r : Int × Sys} (hI : ReaderInv s)
    (h : zio_flush s = some r) : ReaderInv r.2 := by
  obtain ⟨hrel, heof⟩ := zio_flush_spec s r h
  obtain ⟨hr, hp, he, hs⟩ := hI
  obtain ⟨f1, f2, _, _, f5, _, _, _, _⟩ := hrel.frame
  refine ⟨?_, ?_, ?_, ?_⟩
  · simp only [zio_reader, f1] at hr ⊢
    exact hr
  · rw [hrel.payloads_eq, f5]
    exact hp
  · intro h1
    rw [hrel.eof_eq] at h1
    obtain ⟨a, b⟩ := heof h1
    exact ⟨a, by rw [f2]; exact (he h1).2.1, b⟩
  · intro h1
    rw [hrel.eof_eq]
    by_cases h0 : zio_eof s.zio = true
    · exact h0
    · have h0f : zio_eof s.zio = false := by simpa using h0
      rw [hrel.eof_sent_eq h0f] at h1
      exact hs h1

theorem ReaderInv.read_cb_reader {s : Sys} (r : ReadRes) (hI : ReaderInv s) :
    ∃ q, zio_read_cb r s = some q ∧ ReaderInv q.2 := by
  cases hres : fd_read s.zio.srcfd r with
  | err e => exact ⟨(0, s), zio_read_cb_of_read_error s r e hres, hI⟩
  | ok bs =>
    have hfd := fd_read_ok hres
    obtain ⟨hr, hp, he, hs⟩ := hI
    have he0 : zio_eof s.zio = false := by
      by_contra hne
      exact hfd (he (by simpa using hne)).2.1
    have hs0 : zio_eof_sent s.zio = false := by
      by_contra hne
      have := hs (by simpa using hne)
      rw [he0] at this
      cases this
    rw [zio_read_cb_ok s r bs hres]
    by_cases hb : bs = []
    · subst hb
      rw [if_pos rfl]
      obtain ⟨f, hf⟩ := zio_flush_returns
        { s with zio := zio_set_eof { s.zio with buf := s.zio.buf ++ [] }, rd := s.rd ++ [] }
      rw [hf]
      obtain ⟨hrel, heof⟩ := zio_flush_spec _ f hf
      obtain ⟨f1, f2, _, _, f5, _, _, _, _⟩ := hrel.frame
      have hset : zio_eof (zio_set_eof { s.zio with buf := s.zio.buf ++ [] }) = true :=
        zio_eof_set_eof _
      obtain ⟨hsent, hbuf⟩ := heof hset
      dsimp only
      rw [if_pos hsent]
      refine ⟨_, rfl, ?_, ?_, ?_, ?_⟩
      · simp only [zio_reader, zio_close_io_type]
        simp only [zio_reader, f1, zio_set_eof] at hr ⊢
        exact hr
      · rw [zio_close_buf, (zio_close_logs _).1, (zio_close_logs _).2.1]
        show payloads f.2.sent ++ f.2.zio.buf = f.2.rd
        rw [hrel.payloads_eq, f5]
        simp [zio_set_eof, hp]
      · intro _
        have hrd : zio_reader f.2.zio = true := by
          simp only [zio_reader, f1, zio_set_eof] at hr ⊢
          exact hr
        refine ⟨?_, ?_, ?_⟩
        · rw [zio_eof_sent_close]
          exact hsent
        · rw [zio_close_zio]
          simp [hrd]
        · rw [zio_close_buf]
          exact hbuf
      · intro _
        rw [zio_eof_close]
        show zio_eof f.2.zio = true
        rw [hrel.eof_eq]
        exact hset
    · rw [if_neg hb]
      obtain ⟨f, hf⟩ := zio_flush_returns
        { s with zio := { s.zio with buf := s.zio.buf ++ bs }, rd := s.rd ++ bs }
      rw [hf]
      have hI1 : ReaderInv
          { s with zio := { s.zio with buf := s.zio.buf ++ bs }, rd := s.rd ++ bs } := by
        refine ⟨hr, ?_, ?_, ?_⟩
        · show payloads s.sent ++ (s.zio.buf ++ bs) = s.rd ++ bs
          rw [← List.append_assoc, hp]
        · intro h1
          have : zio_eof s.zio = true := h1
          rw [he0] at this
          cases this
        · intro h1
          have : zio_eof_sent s.zio = true := h1
          rw [hs0] at this
          cases this
      have hI2 := hI1.flush hf
      obtain ⟨hrel, _⟩ := zio_flush_spec _ f hf
      have hns : zio_eof_sent f.2.zio = false := by
        rw [hrel.eof_sent_eq he0]
        exact hs0
      dsimp only
      rw [hns]
      exact ⟨_, rfl, hI2⟩

theorem ConfigRel.set_unbuffered (z : Zio) : ConfigRel z (zio_set_unbuffered z).2 := by
  have m0 : (UINT_MASK ^^^ (ZIO_LINE_BUFFERED ||| ZIO_BUFFERED)).testBit 0 = true := by decide
  have m1 : (UINT_MASK ^^^ (ZIO_LINE_BUFFERED ||| ZIO_BUFFERED)).testBit 1 = true := by decide
  have m5 : (UINT_MASK ^^^ (ZIO_LINE_BUFFERED ||| ZIO_BUFFERED)).testBit 5 = true := by decide
  refine ⟨rfl, ?_, ?_, ?_⟩
  · show (z.flags &&& _).testBit 0 = _
    rw [Nat.testBit_and, m0, Bool.and_true]
  · show (z.flags &&& _).testBit 1 = _
    rw [Nat.testBit_and, m1, Bool.and_true]
  · show (z.flags &&& _).testBit 5 = _
    rw [Nat.testBit_and, m5, Bool.and_true]

theorem testBit_or_BUFFERED_ne (f i : Nat) (h : i ≠ 2) :
    (f ||| ZIO_BUFFERED).testBit i = f.testBit i := by
  rw [Nat.testBit_or, ZIO_BUFFERED_testBit]
  simp [Ne.symm h]

theorem testBit_or_LINE_BUFFERED_ne (f i : Nat) (h : i ≠ 4) :
    (f ||| ZIO_LINE_BUFFERED).testBit i = f.testBit i := by
  rw [Nat.testBit_or, ZIO_LINE_BUFFERED_testBit]
  simp [Ne.symm h]

theorem ConfigRel.set_buffered (z : Zio) (n : Nat) : ConfigRel z (zio_set_buffered z n).2 :=
  ⟨rfl, testBit_or_BUFFERED_ne _ _ (by decide), testBit_or_BUFFERED_ne _ _ (by decide),
    testBit_or_BUFFERED_ne _ _ (by decide)⟩

theorem ConfigRel.set_line_buffered (z : Zio) : ConfigRel z (zio_set_line_buffered z).2 := by
  refine ⟨rfl, ?_, ?_, ?_⟩
  · show ((z.flags ||| ZIO_BUFFERED) ||| ZIO_LINE_BUFFERED).testBit 0 = _
    rw [testBit_or_LINE_BUFFERED_ne _ _ (by decide), testBit_or_BUFFERED_ne _ _ (by decide)]
  · show ((z.flags ||| ZIO_BUFFERED) ||| ZIO_LINE_BUFFERED).testBit 1 = _
    rw [testBit_or_LINE_BUFFERED_ne _ _ (by decide), testBit_or_BUFFERED_ne _ _ (by decide)]
  · show ((z.flags ||| ZIO_BUFFERED) ||| ZIO_LINE_BUFFERED).testBit 5 = _
    rw [testBit_or_LINE_BUFFERED_ne _ _ (by decide), testBit_or_BUFFERED_ne _ _ (by decide)]

theorem ConfigRel.fields {z z1 : Zio} (h : ConfigRel z z1) :
    z1.io_type = z.io_type ∧ z1.srcfd = z.srcfd ∧ z1.dstfd = z.dstfd ∧ z1.buf = z.buf ∧
      z1.close = z.close ∧ z1.name = z.name ∧ zio_eof z1 = zio_eof z ∧
      zio_eof_sent z1 = zio_eof_sent z ∧ zio_closed z1 = zio_closed z := by
  obtain ⟨e, h0, h1, h5⟩ := h
  refine ⟨?_, ?_, ?_, ?_, ?_, ?_, ?_, ?_, ?_⟩
  · rw [e]
  · rw [e]
  · rw [e]
  · rw [e]
  · rw [e]
  · rw [e]
  · rw [zio_eof_eq, zio_eof_eq, h0]
  · rw [zio_eof_sent_eq, zio_eof_sent_eq, h1]
  · rw [zio_closed_eq, zio_closed_eq, h5]

theorem ReaderInv.config_reader {s : Sys} {z1 : Zio} (hI : ReaderInv s) (h : ConfigRel s.zio z1) :
    ReaderInv { s with zio := z1 } := by
  obtain ⟨f1, f2, _, f4, _, _, f7, f8, _⟩ := h.fields
  obtain ⟨hr, hp, he, hs⟩ := hI
  refine ⟨?_, ?_, ?_, ?_⟩
  · simp only [zio_reader, f1] at hr ⊢
    exact hr
  · show payloads s.sent ++ z1.buf = s.rd
    rw [f4]; exact hp
  · show zio_eof z1 = true → zio_eof_sent z1 = true ∧ z1.srcfd < 0 ∧ z1.buf = []
    rw [f7, f8, f2, f4]; exact he
  · show zio_eof_sent z1 = true → zio_eof z1 = true
    rw [f7, f8]; exact hs

theorem zio_write_json_not_writer (s : Sys) (o : Envelope) (w : WriteRes)
    (h : zio_writer s.zio = false) : zio_write_json s o w = (-1, s, o) := by
  simp [zio_write_json, h]

/-- Every event keeps the invariant of a reader, and every event returns. -/
theorem ReaderInv.step_reader {s : Sys} (e : Event) (hI : ReaderInv s) :
    ∃ s1, step s e = some s1 ∧ ReaderInv s1 := by
  have hr := hI.1
  have hw := zio_reader_not_writer s.zio hr
  cases e with
  | read_cb r =>
    obtain ⟨q, hq, hInv⟩ := hI.read_cb_reader r
    exact ⟨q.2, by simp [step, hr, hq], hInv⟩
  | writer_cb w => exact ⟨s, by simp [step, hw], hI⟩
  | flush =>
    obtain ⟨q, hq⟩ := zio_flush_returns s
    exact ⟨q.2, by simp [step, hq], hI.flush hq⟩
  | write_json o w =>
    exact ⟨s, by simp [step, zio_write_json_not_writer s o w hw], hI⟩
  | set_unbuffered => exact ⟨_, rfl, hI.config_reader (ConfigRel.set_unbuffered s.zio)⟩
  | set_buffered n => exact ⟨_, rfl, hI.config_reader (ConfigRel.set_buffered s.zio n)⟩
  | set_line_buffered => exact ⟨_, rfl, hI.config_reader (ConfigRel.set_line_buffered s.zio)⟩

theorem ReaderInv.run_reader {s : Sys} (evs : List Event) (hI : ReaderInv s) :
    ∃ s1, run s evs = some s1 ∧ ReaderInv s1 := by
  induction evs generalizing s with
  | nil => exact ⟨s, rfl, hI⟩
  | cons e es ih =>
    obtain ⟨s1, h1, hI1⟩ := hI.step_reader e
    obtain ⟨s2, h2, hI2⟩ := ih hI1
    exact ⟨s2, by simp [run, h1, h2], hI2⟩

theorem FreshReader.reader_inv {s : Sys} (h : FreshReader s) : ReaderInv s := by
  obtain ⟨hr, he, hs, hb, hsent, hrd⟩ := h
  refine ⟨hr, ?_, ?_, ?_⟩
  · rw [hsent, hb, hrd]; rfl
  · intro h1; rw [he] at h1; cases h1
  · intro h1; rw [hs] at h1; cases h1

/-- C1: for every reader and every sequence of events (readable callbacks, `zio_flush`
calls, and the others, which leave a reader alone), the run returns, the payloads handed
to the send callback followed by the bytes still in the ring are the bytes read from
`srcfd`, in order, and once EOF_SENT is set the ring is empty, so that the payloads
alone are the bytes read. -/
theorem reader_stream_preserved (s : Sys) (evs : List Event) (h : FreshReader s) :
    ∃ s1, run s evs = some s1 ∧ payloads s1.sent ++ s1.zio.buf = s1.rd ∧
      (zio_eof_sent s1.zio = true → s1.zio.buf = [] ∧ payloads s1.sent = s1.rd) := by
  obtain ⟨s1, h1, _, hp, he, hs⟩ := h.reader_inv.run_reader evs
  refine ⟨s1, h1, hp, fun hsent => ?_⟩
  have hb := (he (hs hsent)).2.2
  refine ⟨hb, ?_⟩
  rw [hb, List.append_nil] at hp
  exact hp

/-- The theorem `reader_stream_preserved` at a reader that reads "hi\nt", is flushed and
reads end of file. -/
theorem reader_stream_preserved_witness :
    FreshReader ex_reader ∧
    ∃ s1, run ex_reader [Event.read_cb (ReadRes.ok [104, 105, 10, 116]), Event.flush,
        Event.read_cb (ReadRes.ok [])] = some s1 ∧
      payloads s1.sent ++ s1.zio.buf = s1.rd ∧
      (zio_eof_sent s1.zio = true → s1.zio.buf = [] ∧ payloads s1.sent = s1.rd) :=
  have h : FreshReader ex_reader := by unfold FreshReader; decide
  ⟨h, reader_stream_preserved ex_reader _ h⟩

/-! ## Error handling of the poll callbacks and the write path -/

theorem zio_write_data_eagain_too_long (s : Sys) (buf : List Byte) (len : Nat) (w : WriteRes)
    (he : zio_buffer_empty s.zio = true)
    (hw : fd_write s.zio.dstfd len w = WriteRes.err EAGAIN)
    (hbig : cbuf_free s.zio.buf < len) (hlen : len ≤ buf.length) :
    zio_write_data s buf len w = (-1, s) := by
  have h0 : ¬ 0 = len := by omega
  have h1 : len - 0 ≠ 0 := by omega
  have ho : cbuf_write s.zio.buf ((buf.drop 0).take (len - 0)) = (-1, s.zio.buf) := by
    apply cbuf_write_overflow
    rw [List.length_take, List.length_drop]
    omega
  simp only [zio_write_data, he, hw, if_true, zio_write_data_written, if_neg h0,
    zio_write_data_enqueue, if_pos h1, ho]
  simp

/-- C6, the code at the failing input: on a reader whose read fails with EIO (an `errno`
other than EAGAIN), `zio_read_cb` returns 0, not a negative value.  The lemma
`zio_read_cb_of_read_error` shows the same for every `errno`. -/
theorem zio_read_cb_eio_returns_zero :
    fd_read ex_reader.zio.srcfd (ReadRes.err EIO) = ReadRes.err EIO ∧ EIO ≠ EAGAIN ∧
      (zio_read_cb (ReadRes.err EIO) ex_reader).map (fun q => q.1) = some 0 := by
  decide

/-- C7 (amended): when the system call fails with EAGAIN, `zio_read_cb` and
`zio_writer_cb` return 0 and leave the whole system as it was (flags, ring, descriptors,
poll registration, no close); and `zio_write_data`, when the payload fits into the free
space of the ring, returns a non-negative value, appends the whole payload to the ring
and writes nothing. -/
theorem would_block_no_progress (s : Sys) (r : ReadRes) (w : WriteRes) (buf : List Byte)
    (len : Nat) :
    (fd_read s.zio.srcfd r = ReadRes.err EAGAIN → zio_read_cb r s = some (0, s)) ∧
    (fd_write s.zio.dstfd (cbuf_used s.zio.buf) w = WriteRes.err EAGAIN →
      zio_writer_cb w s = (0, s)) ∧
    (zio_buffer_empty s.zio = true → fd_write s.zio.dstfd len w = WriteRes.err EAGAIN →
      len ≤ cbuf_free s.zio.buf →
      0 ≤ (zio_write_data s buf len w).1 ∧
        (zio_write_data s buf len w).2.zio.buf = s.zio.buf ++ buf.take len ∧
        (zio_write_data s buf len w).2.wr = s.wr) :=
  ⟨zio_read_cb_of_read_error s r EAGAIN, zio_writer_cb_of_eagain s w,
    zio_write_data_of_eagain s buf len w⟩

/-- The theorem `would_block_no_progress` at a fresh reader, at a writer whose ring holds
one octet, and at a fresh writer with the payload "hi". -/
theorem would_block_no_progress_witness :
    fd_write ex_writer_queued.zio.dstfd (cbuf_used ex_writer_queued.zio.buf)
      (WriteRes.err EAGAIN) = WriteRes.err EAGAIN ∧
    zio_writer_cb (WriteRes.err EAGAIN) ex_writer_queued = (0, ex_writer_queued) ∧
    zio_buffer_empty ex_writer.zio = true ∧
    fd_write ex_writer.zio.dstfd 2 (WriteRes.err EAGAIN) = WriteRes.err EAGAIN ∧
    2 ≤ cbuf_free ex_writer.zio.buf ∧
    (zio_write_data ex_writer [104, 105] 2 (WriteRes.err EAGAIN)).2.zio.buf = [104, 105] ∧
    fd_read ex_reader.zio.srcfd (ReadRes.err EAGAIN) = ReadRes.err EAGAIN ∧
    zio_read_cb (ReadRes.err EAGAIN) ex_reader = some (0, ex_reader) :=
  have h := would_block_no_progress ex_reader (ReadRes.err EAGAIN) (WriteRes.err EAGAIN)
    [104, 105] 2
  have h1 := would_block_no_progress ex_writer_queued (ReadRes.err EAGAIN)
    (WriteRes.err EAGAIN) [104, 105] 2
  have h2 := would_block_no_progress ex_writer (ReadRes.err EAGAIN) (WriteRes.err EAGAIN)
    [104, 105] 2
  have a1 : fd_read ex_reader.zio.srcfd (ReadRes.err EAGAIN) = ReadRes.err EAGAIN := by decide
  have a2 : fd_write ex_writer_queued.zio.dstfd (cbuf_used ex_writer_queued.zio.buf)
      (WriteRes.err EAGAIN) = WriteRes.err EAGAIN := by decide
  have a3 : zio_buffer_empty ex_writer.zio = true := by decide
  have a4 : fd_write ex_writer.zio.dstfd 2 (WriteRes.err EAGAIN) = WriteRes.err EAGAIN := by
    decide
  have a5 : 2 ≤ cbuf_free ex_writer.zio.buf := by decide
  ⟨a2, h1.2.1 a2, a3, a4, a5, (h2.2.2 a3 a4 a5).2.1, a1, h.1 a1⟩

/-- C7, counterexample to the claim as stated: on a writer with an empty ring, a payload
of 1638401 octets (one more than the ring can hold) whose direct write fails with EAGAIN
is not enqueued, and `zio_write_data` returns -1. -/
theorem zio_write_data_eagain_overflow :
    zio_buffer_empty ex_writer.zio = true ∧
    fd_write ex_writer.zio.dstfd 1638401 (WriteRes.err EAGAIN) = WriteRes.err EAGAIN ∧
    (zio_write_data ex_writer (List.replicate 1638401 0) 1638401 (WriteRes.err EAGAIN)).1 = -1 ∧
    (zio_write_data ex_writer (List.replicate 1638401 0) 1638401
      (WriteRes.err EAGAIN)).2.zio.buf = [] := by
  have a3 : zio_buffer_empty ex_writer.zio = true := by decide
  have a4 : fd_write ex_writer.zio.dstfd 1638401 (WriteRes.err EAGAIN) = WriteRes.err EAGAIN := by
    decide
  have a5 : cbuf_free ex_writer.zio.buf < 1638401 := by decide
  have a6 : 1638401 ≤ (List.replicate 1638401 (0 : Byte)).length := by
    rw [List.length_replicate]
  rw [zio_write_data_eagain_too_long ex_writer _ 1638401 _ a3 a4 a5 a6]
  exact ⟨a3, a4, rfl, rfl⟩

/-- C8, the code at the failing input: a reader in plain buffered mode (BUFFERED set,
LINE_BUFFERED clear), without EOF, whose ring holds one octet with `buffersize` 4096: the
flushable amount is 1, where the claim has 0 because `used > buffersize` fails.  The lemma
`zio_data_to_flush_buffered` gives the amount in general: the test of the code is
`used <= buffersize`. -/
theorem zio_data_to_flush_small_ring :
    zio_buffered ex_buffered_reader = true ∧ zio_line_buffered ex_buffered_reader = false ∧
      zio_eof ex_buffered_reader = false ∧ cbuf_used ex_buffered_reader.buf = 1 ∧
      ex_buffered_reader.buffersize = 4096 ∧ zio_data_to_flush ex_buffered_reader = 1 := by
  decide

/-! ## The codec -/

/-- C9: for every name, every non-empty payload and every eof flag, `zio_json_decode`
of `zio_json_encode (payload, len, eof, name)` returns `len` and yields the same
payload, the same eof flag and the same name. -/
theorem zio_json_decode_encode (name : String) (payload : List Byte) (eof : Bool)
    (out : DecodeOut) (h : payload ≠ []) :
    zio_json_decode (some (zio_json_encode (some payload) payload.length eof name)) out =
      ((payload.length : Int), { data := some payload, eof := eof, name := some name }) := by
  have hl : payload.length ≠ 0 := by simpa using h
  cases eof <;>
  simp [zio_json_decode, zio_json_encode, zio_data_object, hl, util_json_object_add_base64,
    util_json_object_add_boolean, json_object_object_add, util_json_object_new_object,
    util_json_object_get_boolean, util_json_object_get_base64, b64decode_b64encode,
    List.lookup_cons, eof_beq_data, data_beq_eof]

/-- The theorem `zio_json_decode_encode` at the payload "hi" with eof true and the name
"out". -/
theorem zio_json_decode_encode_witness :
    ([104, 105] : List Byte) ≠ [] ∧
    zio_json_decode (some (zio_json_encode (some [104, 105]) 2 true "out")) ex_out =
      (2, { data := some [104, 105], eof := true, name := some "out" }) :=
  ⟨by decide, zio_json_decode_encode "out" [104, 105] true ex_out (by decide)⟩

/-- C10, the code at the failing input: the frame that `zio_json_encode` builds for an
empty payload with eof true, `{"out": {"eof": true}}`, is rejected by `zio_json_decode`: it
returns -1 and leaves the outputs untouched.  The lemma `zio_json_decode_without_data`
shows the same for every one-key envelope whose value has no `data` member. -/
theorem zio_json_decode_rejects_eof_only :
    zio_json_encode none 0 true "out" = [("out", some [("eof", JVal.bool true)])] ∧
    zio_json_decode (some (zio_json_encode none 0 true "out")) ex_out = (-1, ex_out) := by
  decide

/-! ## The close callback runs at most once -/

theorem CloseInv.of_same {s t : Sys} (hI : CloseInv s) (h : CloseSame s t) : CloseInv t := by
  obtain ⟨e1, e2, e3, e4, e5, e6⟩ := h
  unfold CloseInv at hI ⊢
  simp only [zio_reader, zio_writer] at hI ⊢
  rw [e1, e2, e3, e4, e5, e6]
  exact hI

theorem CloseSame.same_refl (s : Sys) : CloseSame s s := ⟨rfl, rfl, rfl, rfl, rfl, rfl⟩

theorem zio_close_close_calls (s : Sys) : (zio_close s).2.close_calls ≤ s.close_calls + 1 := by
  unfold zio_close
  cases hc : s.zio.close <;> simp [hc] <;> split_ifs <;> simp_all

theorem zio_reader_close (s : Sys) : zio_reader (zio_close s).2.zio = zio_reader s.zio := by
  simp only [zio_reader, zio_close_io_type]

theorem zio_writer_close (s : Sys) : zio_writer (zio_close s).2.zio = zio_writer s.zio := by
  simp only [zio_writer, zio_close_io_type]

theorem zio_writer_not_reader (z : Zio) (h : zio_writer z = true) : zio_reader z = false := by
  simp only [zio_reader, zio_writer, ZIO_READER, ZIO_WRITER, beq_iff_eq] at h ⊢
  rw [h]
  decide

theorem zio_close_srcfd_reader (s : Sys) (h : zio_reader s.zio = true) :
    (zio_close s).2.zio.srcfd = -1 := by
  rw [zio_close_zio]
  simp [h]

theorem zio_close_dstfd_writer (s : Sys) (h : zio_writer s.zio = true) :
    (zio_close s).2.zio.dstfd = -1 := by
  rw [zio_close_zio]
  simp [h, zio_writer_not_reader s.zio h]

/-- Running `zio_close` on an object whose descriptor is still open keeps the invariant. -/
theorem CloseInv.close_open {s : Sys} (hI : CloseInv s)
    (hfd : (zio_reader s.zio = true → ¬ s.zio.srcfd < 0) ∧
      (zio_writer s.zio = true → ¬ s.zio.dstfd < 0)) : CloseInv (zio_close s).2 := by
  obtain ⟨ht, hc, hr, hcalls⟩ := hI
  have hopen : zio_closed s.zio = false := by
    by_contra hne
    have hcl := hc (by simpa using hne)
    rcases ht with h | h
    · exact hfd.1 h (hcl.1 h)
    · exact hfd.2 h (hcl.2 h)
  have hruns : s.close_runs = 0 := by simpa [hopen] using hr
  refine ⟨?_, ?_, ?_, ?_⟩
  · simp only [zio_reader, zio_writer, zio_close_io_type]
    exact ht
  · intro _
    constructor
    · intro h
      rw [zio_reader_close] at h
      rw [zio_close_srcfd_reader s h]
      decide
    · intro h
      rw [zio_writer_close] at h
      rw [zio_close_dstfd_writer s h]
      decide
  · rw [zio_closed_close, if_pos rfl, (zio_close_logs s).2.2.2.2, hruns]
  · have := zio_close_close_calls s
    rw [(zio_close_logs s).2.2.2.2]
    omega

theorem FlushRel.close_same {s t : Sys} (h : FlushRel s t) : CloseSame s t := by
  obtain ⟨f1, f2, f3, _, _, _, f7, f8, _⟩ := h.frame
  refine ⟨f1, f2, f3, ?_, f7, f8⟩
  rw [zio_closed_eq, zio_closed_eq]
  exact h.testBit_eq 5 (by decide)

theorem zio_closed_set_eof (z : Zio) : zio_closed (zio_set_eof z) = zio_closed z := by
  rw [zio_closed_eq, zio_closed_eq]
  show (z.flags ||| ZIO_EOF).testBit 5 = _
  rw [Nat.testBit_or, ZIO_EOF_testBit]
  simp

theorem CloseInv.read_cb_close {s : Sys} (r : ReadRes) (hI : CloseInv s)
    (hr : zio_reader s.zio = true) : ∃ q, zio_read_cb r s = some q ∧ CloseInv q.2 := by
  cases hres : fd_read s.zio.srcfd r with
  | err e => exact ⟨(0, s), zio_read_cb_of_read_error s r e hres, hI⟩
  | ok bs =>
    have hfd := fd_read_ok hres
    rw [zio_read_cb_ok s r bs hres]
    have key : ∀ s2 : Sys, CloseSame s s2 →
        ∃ q, (match zio_flush s2 with
          | none => none
          | some f =>
            if zio_eof_sent f.2.zio then some (zio_close { f.2 with polled := false })
            else some (0, f.2)) = some q ∧ CloseInv q.2 := by
      intro s2 h2
      obtain ⟨f, hf⟩ := zio_flush_returns s2
      rw [hf]
      have hrel := (zio_flush_spec s2 f hf).1.close_same
      have hsame : CloseSame s f.2 :=
        ⟨hrel.1.trans h2.1, hrel.2.1.trans h2.2.1, hrel.2.2.1.trans h2.2.2.1,
          hrel.2.2.2.1.trans h2.2.2.2.1, hrel.2.2.2.2.1.trans h2.2.2.2.2.1,
          hrel.2.2.2.2.2.trans h2.2.2.2.2.2⟩
      have hIf : CloseInv f.2 := hI.of_same hsame
      dsimp only
      split_ifs
      · refine ⟨_, rfl, ?_⟩
        have hIp : CloseInv { f.2 with polled := false } := hIf
        apply hIp.close_open
        constructor
        · intro _
          show ¬ f.2.zio.srcfd < 0
          rw [hsame.2.1]
          exact hfd
        · intro hwr
          exfalso
          have h1 : zio_reader f.2.zio = true := by
            simp only [zio_reader, hsame.1]
            exact hr
          have h2 : zio_writer f.2.zio = false := zio_reader_not_writer _ h1
          have h3 : zio_writer f.2.zio = true := hwr
          rw [h2] at h3
          cases h3
      · exact ⟨_, rfl, hIf⟩
    split_ifs
    · exact key _ ⟨rfl, rfl, rfl, zio_closed_set_eof _, rfl, rfl⟩
    · exact key _ ⟨rfl, rfl, rfl, rfl, rfl, rfl⟩

theorem fd_write_ok {fd : Int} {len n : Nat} {w : WriteRes}
    (h : fd_write fd len w = WriteRes.ok n) : ¬ fd < 0 := by
  intro hlt
  simp [fd_write, hlt] at h

theorem fd_write_le {fd : Int} {len n : Nat} {w : WriteRes}
    (h : fd_write fd len w = WriteRes.ok n) : n ≤ len := by
  unfold fd_write at h
  split_ifs at h
  · simp only [WriteRes.ok.injEq] at h
    omega
  · cases w with
    | ok m =>
      simp only [WriteRes.ok.injEq] at h
      omega
    | err e => simp at h

theorem fd_write_eagain {fd : Int} {len : Nat} {w : WriteRes}
    (h : fd_write fd len w = WriteRes.err EAGAIN) : ¬ fd < 0 := by
  intro hlt
  simp only [fd_write, hlt, if_true, WriteRes.err.injEq] at h
  revert h
  decide

theorem zio_write_data_enqueue_same (s : Sys) (buf : List Byte) (len n : Nat) :
    CloseSame s (zio_write_data_enqueue s buf len n).2 := by
  unfold zio_write_data_enqueue
  dsimp only
  split_ifs <;> exact ⟨rfl, rfl, rfl, rfl, rfl, rfl⟩

theorem CloseInv.write_data_written {s : Sys} (buf : List Byte) (len n : Nat)
    (hI : CloseInv s) (hfd : ¬ s.zio.dstfd < 0) (hw : zio_writer s.zio = true) :
    CloseInv (zio_write_data_written s buf len n).2 := by
  unfold zio_write_data_written
  split_ifs
  · apply hI.close_open
    refine ⟨fun h => ?_, fun _ => hfd⟩
    rw [zio_writer_not_reader s.zio hw] at h
    cases h
  · exact hI
  · exact hI.of_same (zio_write_data_enqueue_same s buf len n)

theorem CloseInv.write_data {s : Sys} (buf : List Byte) (len : Nat) (w : WriteRes)
    (hI : CloseInv s) (hw : zio_writer s.zio = true) :
    CloseInv (zio_write_data s buf len w).2 := by
  unfold zio_write_data
  by_cases he : zio_buffer_empty s.zio = true
  · rw [if_pos he]
    cases hres : fd_write s.zio.dstfd len w with
    | err e =>
      by_cases hag : e = EAGAIN
      · subst hag
        simp only [if_true]
        exact hI.write_data_written buf len 0 (fd_write_eagain hres) hw
      · simp only [if_neg hag]
        exact hI
    | ok n =>
      have hI1 : CloseInv { s with wr := s.wr ++ buf.take n } := hI
      exact hI1.write_data_written buf len n (fd_write_ok hres) hw
  · rw [if_neg he]
    exact hI.of_same (zio_write_data_enqueue_same s buf len 0)

theorem CloseInv.writer_schedule {s : Sys} (hI : CloseInv s) :
    CloseInv (zio_writer_schedule s).2 := by
  unfold zio_writer_schedule
  split_ifs
  · exact hI
  · exact hI

theorem CloseInv.write_json {s : Sys} (o : Envelope) (w : WriteRes) (hI : CloseInv s) :
    CloseInv (zio_write_json s o w).2.1 := by
  unfold zio_write_json
  by_cases hw : zio_writer s.zio = true
  · simp only [hw, Bool.not_true, Bool.false_eq_true, if_false]
    cases hx : json_object_object_get_ex o s.zio.name with
    | none => exact hI
    | some x =>
      dsimp only
      have h1 : ∀ s1 : Sys, CloseSame s s1 → zio_writer s1.zio = true →
          CloseInv (match util_json_object_get_base64 x "data" with
            | some d => zio_write_data s1 d d.length w
            | none => (0, s1)).2 := by
        intro s1 hs1 hw1
        cases util_json_object_get_base64 x "data" with
        | none => exact hI.of_same hs1
        | some d => exact (hI.of_same hs1).write_data d d.length w hw1
      have h2 : ∀ q : Sys, CloseInv q →
          CloseInv (if zio_write_pending q.zio = true then (zio_writer_schedule q).2 else q) := by
        intro q hq
        split_ifs
        · exact hq.writer_schedule
        · exact hq
      apply h2
      split_ifs
      · exact h1 _ ⟨rfl, rfl, rfl, zio_closed_set_eof _, rfl, rfl⟩ hw
      · exact h1 _ (CloseSame.same_refl s) hw
  · have hw0 : zio_writer s.zio = false := by simpa using hw
    simp only [hw0, Bool.not_false, if_true]
    exact hI

theorem zio_writer_cb_err (s : Sys) (w : WriteRes) (e : Nat)
    (h : fd_write s.zio.dstfd s.zio.buf.length w = WriteRes.err e) :
    zio_writer_cb w s = if e = EAGAIN then (0, s) else (-1, s) := by
  simp [zio_writer_cb, cbuf_read_to_fd, h]

/-- The part of `zio_writer_cb` after the ring is drained: close at EOF with an empty
ring when nothing was written, then drop the poll interest when nothing is pending. -/
theorem zio_writer_cb_ok (s : Sys) (w : WriteRes) (n : Nat)
    (h : fd_write s.zio.dstfd s.zio.buf.length w = WriteRes.ok n) :
    zio_writer_cb w s =
      (fun q : Int × Sys =>
        if (!zio_write_pending q.2.zio) = true then (q.1, { q.2 with polled := false }) else q)
      (if (n : Int) = 0 ∧ zio_eof_pending
          ({ s with zio := { s.zio with buf := s.zio.buf.drop n },
                    wr := s.wr ++ s.zio.buf.take n } : Sys).zio = true
        then zio_close { s with zio := { s.zio with buf := s.zio.buf.drop n },
                                wr := s.wr ++ s.zio.buf.take n }
        else ((n : Int), { s with zio := { s.zio with buf := s.zio.buf.drop n },
                                  wr := s.wr ++ s.zio.buf.take n })) := by
  have hn : ¬ ((n : Int) < 0) := by omega
  simp only [zio_writer_cb, cbuf_read_to_fd, h, hn, if_false]

theorem CloseInv.writer_cb_tail (q : Int × Sys) (hq : CloseInv q.2) :
    CloseInv ((fun q : Int × Sys =>
      if (!zio_write_pending q.2.zio) = true then (q.1, { q.2 with polled := false }) else q)
      q).2 := by
  dsimp only
  split_ifs
  · exact hq
  · exact hq

theorem CloseInv.writer_cb {s : Sys} (w : WriteRes) (hI : CloseInv s)
    (hw : zio_writer s.zio = true) : CloseInv (zio_writer_cb w s).2 := by
  cases hres : fd_write s.zio.dstfd s.zio.buf.length w with
  | err e =>
    rw [zio_writer_cb_err s w e hres]
    split_ifs <;> exact hI
  | ok n =>
    have hfd := fd_write_ok hres
    rw [zio_writer_cb_ok s w n hres]
    apply CloseInv.writer_cb_tail
    have hI1 : CloseInv
        { s with zio := { s.zio with buf := s.zio.buf.drop n }, wr := s.wr ++ s.zio.buf.take n } :=
      hI.of_same ⟨rfl, rfl, rfl, rfl, rfl, rfl⟩
    split_ifs
    · apply hI1.close_open
      refine ⟨fun h => ?_, fun _ => hfd⟩
      have h1 : zio_reader s.zio = true := h
      rw [zio_writer_not_reader s.zio hw] at h1
      cases h1
    · exact hI1

theorem CloseInv.config_close {s : Sys} {z1 : Zio} (hI : CloseInv s) (h : ConfigRel s.zio z1) :
    CloseInv { s with zio := z1 } := by
  obtain ⟨f1, f2, f3, _, _, _, _, _, f9⟩ := h.fields
  exact hI.of_same ⟨f1, f2, f3, f9, rfl, rfl⟩

/-- Every event keeps the invariant, and every event returns. -/
theorem CloseInv.step_close {s : Sys} (e : Event) (hI : CloseInv s) :
    ∃ s1, step s e = some s1 ∧ CloseInv s1 := by
  cases e with
  | read_cb r =>
    by_cases hr : zio_reader s.zio = true
    · obtain ⟨q, hq, hInv⟩ := hI.read_cb_close r hr
      exact ⟨q.2, by simp [FluxZio.step, hr, hq], hInv⟩
    · exact ⟨s, by simp [FluxZio.step, hr], hI⟩
  | writer_cb w =>
    by_cases hw : zio_writer s.zio = true
    · exact ⟨_, by simp [FluxZio.step, hw], hI.writer_cb w hw⟩
    · exact ⟨s, by simp [FluxZio.step, hw], hI⟩
  | flush =>
    obtain ⟨q, hq⟩ := zio_flush_returns s
    exact ⟨q.2, by simp [FluxZio.step, hq], hI.of_same (zio_flush_spec s q hq).1.close_same⟩
  | write_json o w => exact ⟨_, rfl, hI.write_json o w⟩
  | set_unbuffered => exact ⟨_, rfl, hI.config_close (ConfigRel.set_unbuffered s.zio)⟩
  | set_buffered n => exact ⟨_, rfl, hI.config_close (ConfigRel.set_buffered s.zio n)⟩
  | set_line_buffered => exact ⟨_, rfl, hI.config_close (ConfigRel.set_line_buffered s.zio)⟩

theorem CloseInv.run_close {s : Sys} (evs : List Event) (hI : CloseInv s) :
    ∃ s1, run s evs = some s1 ∧ CloseInv s1 := by
  induction evs generalizing s with
  | nil => exact ⟨s, rfl, hI⟩
  | cons e es ih =>
    obtain ⟨s1, h1, hI1⟩ := hI.step_close e
    obtain ⟨s2, h2, hI2⟩ := ih hI1
    exact ⟨s2, by simp [FluxZio.run, h1, h2], hI2⟩

theorem FreshZio.close_inv {s : Sys} (h : FreshZio s) : CloseInv s := by
  obtain ⟨ht, hc, hr, hcalls⟩ := h
  refine ⟨ht, ?_, ?_, ?_⟩
  · intro h1; rw [hc] at h1; cases h1
  · rw [hc, hr]; rfl
  · rw [hcalls]; exact Nat.zero_le _

/-- C4: for every zio (reader or writer) that starts with CLOSED clear and every sequence
of events (`zio_write_json`, `zio_flush`, the poll callbacks, the mutators of the
buffering mode), the run returns, `zio_close` has run once if CLOSED is set at the end
and not at all otherwise - so it never ran on an object that was already CLOSED - and the
close callback has run at most once. -/
theorem close_at_most_once (s : Sys) (evs : List Event) (h : FreshZio s) :
    ∃ s1, run s evs = some s1 ∧
      s1.close_runs = (if zio_closed s1.zio = true then 1 else 0) ∧
      s1.close_calls ≤ s1.close_runs ∧ s1.close_calls ≤ 1 := by
  obtain ⟨s1, h1, _, _, hr, hc⟩ := h.close_inv.run_close evs
  refine ⟨s1, h1, hr, hc, ?_⟩
  rw [hr] at hc
  split_ifs at hc <;> omega

/-- The theorem `close_at_most_once` at a writer that receives an EOF-only envelope and
two writable callbacks. -/
theorem close_at_most_once_witness :
    FreshZio ex_writer ∧
    ∃ s1, run ex_writer [Event.write_json ex_env_eof (WriteRes.ok 0),
        Event.writer_cb (WriteRes.ok 0), Event.writer_cb (WriteRes.ok 0)] = some s1 ∧
      s1.close_runs = (if zio_closed s1.zio = true then 1 else 0) ∧
      s1.close_calls ≤ s1.close_runs ∧ s1.close_calls ≤ 1 :=
  have h : FreshZio ex_writer := by unfold FreshZio; decide
  ⟨h, close_at_most_once ex_writer _ h⟩

/-! ## Evaluations of the code where it departs from the claims -/

/-- C2, the code at the failing input: an unbuffered writer receives the payload "a"
while `dstfd` would block (the octet goes to the ring), then the payload "b" while
`dstfd` takes it (`zio_buffer_empty` holds for every unbuffered writer, so the direct
write is made although the ring holds "a"), then a writable callback drains the ring:
`dstfd` has received "ba", and after the second envelope the bytes written followed by
the ring were "b", "a", not "a", "b". -/
theorem unbuffered_writer_reorders :
    envelope_payload ex_env_a = [97] ∧ envelope_payload ex_env_b = [98] ∧
    (run ex_unbuffered_writer [Event.write_json ex_env_a (WriteRes.err EAGAIN),
        Event.write_json ex_env_b (WriteRes.ok 1)]).map (fun s => (s.wr, s.zio.buf)) =
      some ([98], [97]) ∧
    (run ex_unbuffered_writer [Event.write_json ex_env_a (WriteRes.err EAGAIN),
        Event.write_json ex_env_b (WriteRes.ok 1),
        Event.writer_cb (WriteRes.ok 1)]).map (fun s => (s.wr, s.zio.buf)) =
      some ([98, 97], []) := by
  decide

/-- C3, the code at the failing input: a reader reads end of file (one frame with
`eof: true` is sent, the reader closes), then `zio_flush` is called: a second frame with
`eof: true` is handed to the send callback. -/
theorem flush_after_eof_sends_eof_again :
    (run ex_reader [Event.read_cb (ReadRes.ok [])]).map
        (fun s => (s.sent.map envelope_eof, zio_eof_sent s.zio)) = some ([true], true) ∧
    (run ex_reader [Event.read_cb (ReadRes.ok []), Event.flush]).map
        (fun s => s.sent.map envelope_eof) = some [true, true] := by
  decide

/-! ## The writer in buffered mode -/

theorem zio_buffered_close (s : Sys) : zio_buffered (zio_close s).2.zio = zio_buffered s.zio := by
  rw [zio_buffered_eq, zio_buffered_eq, zio_close_flags, testBit_or_CLOSED_ne _ _ (by decide)]

theorem zio_buffered_set_eof (z : Zio) : zio_buffered (zio_set_eof z) = zio_buffered z := by
  rw [zio_buffered_eq, zio_buffered_eq]
  show (z.flags ||| ZIO_EOF).testBit 2 = _
  rw [Nat.testBit_or, ZIO_EOF_testBit]
  simp

theorem zio_close_name (s : Sys) : (zio_close s).2.zio.name = s.zio.name := by
  rw [zio_close_zio]; split_ifs <;> rfl

/-- The shape of what the write path leaves behind: same direction, name and buffering
flag, and the stream `wr ++ buf` extended by `d`. -/
theorem zio_write_data_written_stream (s : Sys) (d : List Byte) (n : Nat)
    (hn : n ≤ d.length) (hnil : s.zio.buf = [])
    (hrc : 0 ≤ (zio_write_data_written s d d.length n).1) :
    (zio_write_data_written s d d.length n).2.wr ++ (zio_write_data_written s d d.length n).2.zio.buf =
      s.wr ++ d.drop n ∧
    zio_writer (zio_write_data_written s d d.length n).2.zio = zio_writer s.zio ∧
    zio_buffered (zio_write_data_written s d d.length n).2.zio = zio_buffered s.zio ∧
    (zio_write_data_written s d d.length n).2.zio.name = s.zio.name := by
  unfold zio_write_data_written at hrc ⊢
  by_cases h : n = d.length
  · rw [if_pos h]
    subst h
    split_ifs
    · refine ⟨?_, zio_writer_close s, zio_buffered_close s, zio_close_name s⟩
      rw [(zio_close_logs s).2.2.1, zio_close_buf, hnil]
      simp
    · exact ⟨by simp [hnil], rfl, rfl, rfl⟩
  · rw [if_neg h] at hrc ⊢
    unfold zio_write_data_enqueue at hrc ⊢
    have h1 : d.length - n ≠ 0 := by omega
    rw [if_pos h1] at hrc ⊢
    dsimp only at hrc ⊢
    by_cases ho : (cbuf_write s.zio.buf ((d.drop n).take (d.length - n))).1 < 0
    · rw [if_pos ho] at hrc
      simp at hrc
    · rw [if_neg ho]
      refine ⟨?_, rfl, rfl, rfl⟩
      unfold cbuf_write at ho ⊢
      split_ifs at ho ⊢ with h2
      · simp at ho
      · simp [hnil]

theorem zio_write_data_enqueue_stream (s : Sys) (d : List Byte)
    (hrc : 0 ≤ (zio_write_data_enqueue s d d.length 0).1) :
    (zio_write_data_enqueue s d d.length 0).2.wr ++
        (zio_write_data_enqueue s d d.length 0).2.zio.buf = s.wr ++ s.zio.buf ++ d ∧
    zio_writer (zio_write_data_enqueue s d d.length 0).2.zio = zio_writer s.zio ∧
    zio_buffered (zio_write_data_enqueue s d d.length 0).2.zio = zio_buffered s.zio ∧
    (zio_write_data_enqueue s d d.length 0).2.zio.name = s.zio.name := by
  unfold zio_write_data_enqueue at hrc ⊢
  by_cases h1 : d.length - 0 ≠ 0
  · rw [if_pos h1] at hrc ⊢
    dsimp only at hrc ⊢
    by_cases ho : (cbuf_write s.zio.buf ((d.drop 0).take (d.length - 0))).1 < 0
    · rw [if_pos ho] at hrc
      simp at hrc
    · rw [if_neg ho]
      refine ⟨?_, rfl, rfl, rfl⟩
      unfold cbuf_write at ho ⊢
      split_ifs at ho ⊢ with h2
      · simp at ho
      · simp
  · rw [if_neg h1]
    have : d = [] := List.length_eq_zero.mp (by omega)
    subst this
    exact ⟨by simp, rfl, rfl, rfl⟩

/-- In buffered mode a call of the write path that does not fail extends the stream
`wr ++ buf` by the payload. -/
theorem zio_write_data_stream (s : Sys) (d : List Byte) (w : WriteRes)
    (hb : zio_buffered s.zio = true) (hrc : 0 ≤ (zio_write_data s d d.length w).1) :
    (zio_write_data s d d.length w).2.wr ++ (zio_write_data s d d.length w).2.zio.buf =
      s.wr ++ s.zio.buf ++ d ∧
    zio_writer (zio_write_data s d d.length w).2.zio = zio_writer s.zio ∧
    zio_buffered (zio_write_data s d d.length w).2.zio = zio_buffered s.zio ∧
    (zio_write_data s d d.length w).2.zio.name = s.zio.name := by
  unfold zio_write_data at hrc ⊢
  by_cases he : zio_buffer_empty s.zio = true
  · have hnil : s.zio.buf = [] := by
      simp only [zio_buffer_empty, hb, Bool.not_true, Bool.false_or, beq_iff_eq, cbuf_used] at he
      exact List.length_eq_zero.mp he
    rw [if_pos he] at hrc ⊢
    cases hres : fd_write s.zio.dstfd d.length w with
    | err e =>
      rw [hres] at hrc
      dsimp only at hrc ⊢
      by_cases hag : e = EAGAIN
      · rw [if_pos hag] at hrc ⊢
        have := zio_write_data_written_stream s d 0 (Nat.zero_le _) hnil hrc
        simpa [hnil] using this
      · rw [if_neg hag] at hrc
        simp at hrc
    | ok n =>
      rw [hres] at hrc
      dsimp only at hrc ⊢
      have hn : n ≤ d.length := fd_write_le hres
      have := zio_write_data_written_stream { s with wr := s.wr ++ d.take n } d n hn hnil hrc
      obtain ⟨h1, h2, h3, h4⟩ := this
      refine ⟨?_, h2, h3, h4⟩
      rw [h1, hnil]
      simp
  · rw [if_neg he] at hrc ⊢
    exact zio_write_data_enqueue_stream s d hrc

theorem zio_writer_cb_stream (s : Sys) (w : WriteRes) :
    (zio_writer_cb w s).2.wr ++ (zio_writer_cb w s).2.zio.buf = s.wr ++ s.zio.buf ∧
    zio_writer (zio_writer_cb w s).2.zio = zio_writer s.zio ∧
    zio_buffered (zio_writer_cb w s).2.zio = zio_buffered s.zio ∧
    (zio_writer_cb w s).2.zio.name = s.zio.name := by
  cases hres : fd_write s.zio.dstfd s.zio.buf.length w with
  | err e =>
    rw [zio_writer_cb_err s w e hres]
    split_ifs <;> exact ⟨rfl, rfl, rfl, rfl⟩
  | ok n =>
    rw [zio_writer_cb_ok s w n hres]
    have key : ∀ q : Int × Sys,
        ((fun q : Int × Sys =>
          if (!zio_write_pending q.2.zio) = true then (q.1, { q.2 with polled := false })
          else q) q).2.wr = q.2.wr ∧
        ((fun q : Int × Sys =>
          if (!zio_write_pending q.2.zio) = true then (q.1, { q.2 with polled := false })
          else q) q).2.zio = q.2.zio := by
      intro q
      dsimp only
      split_ifs <;> exact ⟨rfl, rfl⟩
    rw [(key _).1, (key _).2]
    split_ifs
    · refine ⟨?_, zio_writer_close _, zio_buffered_close _, zio_close_name _⟩
      rw [(zio_close_logs _).2.2.1, zio_close_buf]
      simp
    · refine ⟨?_, rfl, rfl, rfl⟩
      simp

/-- In buffered mode a call of `zio_write_json` that does not fail extends the stream
`wr ++ buf` by the payload the envelope carries for this writer. -/
theorem zio_write_json_stream (s : Sys) (o : Envelope) (w : WriteRes)
    (hw : zio_writer s.zio = true) (hb : zio_buffered s.zio = true)
    (hrc : 0 ≤ (zio_write_json s o w).1) :
    (zio_write_json s o w).2.1.wr ++ (zio_write_json s o w).2.1.zio.buf =
      s.wr ++ s.zio.buf ++ payload_for s.zio.name o ∧
    zio_writer (zio_write_json s o w).2.1.zio = true ∧
    zio_buffered (zio_write_json s o w).2.1.zio = true ∧
    (zio_write_json s o w).2.1.zio.name = s.zio.name := by
  unfold zio_write_json payload_for at *
  simp only [hw, Bool.not_true, Bool.false_eq_true, if_false] at hrc ⊢
  cases hx : json_object_object_get_ex o s.zio.name with
  | none => exact ⟨by simp, hw, hb, rfl⟩
  | some x =>
    rw [hx] at hrc
    dsimp only at hrc ⊢
    have sched : ∀ q : Sys,
        (if zio_write_pending q.zio = true then (zio_writer_schedule q).2 else q).wr = q.wr ∧
        (if zio_write_pending q.zio = true then (zio_writer_schedule q).2 else q).zio = q.zio := by
      intro q
      unfold zio_writer_schedule
      split_ifs <;> exact ⟨rfl, rfl⟩
    rw [(sched _).1, (sched _).2]
    have key : ∀ s1 : Sys, s1.wr = s.wr → s1.zio.buf = s.zio.buf → s1.zio.name = s.zio.name →
        zio_writer s1.zio = true → zio_buffered s1.zio = true →
        0 ≤ (match util_json_object_get_base64 x "data" with
          | some d => zio_write_data s1 d d.length w
          | none => (0, s1)).1 →
        (match util_json_object_get_base64 x "data" with
          | some d => zio_write_data s1 d d.length w
          | none => (0, s1)).2.wr ++
        (match util_json_object_get_base64 x "data" with
          | some d => zio_write_data s1 d d.length w
          | none => (0, s1)).2.zio.buf =
          s.wr ++ s.zio.buf ++ (util_json_object_get_base64 x "data").getD [] ∧
        zio_writer (match util_json_object_get_base64 x "data" with
          | some d => zio_write_data s1 d d.length w
          | none => (0, s1)).2.zio = true ∧
        zio_buffered (match util_json_object_get_base64 x "data" with
          | some d => zio_write_data s1 d d.length w
          | none => (0, s1)).2.zio = true ∧
        (match util_json_object_get_base64 x "data" with
          | some d => zio_write_data s1 d d.length w
          | none => (0, s1)).2.zio.name = s.zio.name := by
      intro s1 e1 e2 e3 hw1 hb1 hrc1
      cases hd : util_json_object_get_base64 x "data" with
      | none => exact ⟨by simp [e1, e2], hw1, hb1, e3⟩
      | some d =>
        rw [hd] at hrc1
        obtain ⟨a1, a2, a3, a4⟩ := zio_write_data_stream s1 d w hb1 hrc1
        exact ⟨by simp [a1, e1, e2], by rw [a2, hw1], by rw [a3, hb1], by rw [a4, e3]⟩
    split_ifs at hrc ⊢
    · exact key _ rfl rfl rfl hw (by rw [zio_buffered_set_eof]; exact hb) hrc
    · exact key _ rfl rfl rfl hw hb hrc

/-- Support for C2: for every writer in buffered mode and every run of `zio_write_json`
calls and writable callbacks in which no call fails, the bytes written to `dstfd`
followed by the bytes still in the ring are what was there before, followed by the
payloads, in call order, of the envelopes addressed to the writer. -/
theorem buffered_writer_stream (evs : List Event) :
    ∀ s : Sys, zio_writer s.zio = true → zio_buffered s.zio = true → NoFailure s evs →
      ∃ s1, run s evs = some s1 ∧
        s1.wr ++ s1.zio.buf = s.wr ++ s.zio.buf ++ matched_payloads s.zio.name evs := by
  induction evs with
  | nil => intro s _ _ _; exact ⟨s, rfl, by simp [matched_payloads]⟩
  | cons e es ih =>
    intro s hw hb hnf
    cases e with
    | write_json o w =>
      obtain ⟨hrc, hrest⟩ := hnf
      obtain ⟨a1, a2, a3, a4⟩ := zio_write_json_stream s o w hw hb hrc
      obtain ⟨s1, h1, h2⟩ := ih _ a2 a3 hrest
      refine ⟨s1, by simp [FluxZio.run, FluxZio.step, h1], ?_⟩
      rw [h2, a1, a4]
      simp [matched_payloads]
    | writer_cb w =>
      obtain ⟨a1, a2, a3, a4⟩ := zio_writer_cb_stream s w
      obtain ⟨s1, h1, h2⟩ := ih (zio_writer_cb w s).2 (by rw [a2, hw]) (by rw [a3, hb]) hnf
      refine ⟨s1, by simp [FluxZio.run, FluxZio.step, hw, h1], ?_⟩
      rw [h2, a1, a4]
      simp [matched_payloads]
    | read_cb r => exact absurd hnf (by simp [NoFailure])
    | flush => exact absurd hnf (by simp [NoFailure])
    | set_unbuffered => exact absurd hnf (by simp [NoFailure])
    | set_buffered n => exact absurd hnf (by simp [NoFailure])
    | set_line_buffered => exact absurd hnf (by simp [NoFailure])

/-! ## The EOF frame of a reader -/

theorem zio_send_sent (s : Sys) (p : Option (List Byte)) (len : Nat) :
    (zio_send s p len).2.sent = s.sent ++ [(zio_json_object_create s.zio p len).1] := by
  rw [zio_send_sys]

theorem zio_send_eof_of_not_pending (s : Sys) (p : Option (List Byte)) (len : Nat)
    (h : zio_eof_pending s.zio = false) : zio_eof (zio_send s p len).2.zio = zio_eof s.zio := by
  rw [zio_send_sys]
  simp [h, zio_eof]

/-- While EOF is clear the frames `zio_flush` sends carry no `eof: true`; when EOF is
set it sends exactly one frame, and that frame carries `eof: true`. -/
theorem zio_flush_frames (s : Sys) (r : Int × Sys) (h : zio_flush s = some r) :
    (zio_eof s.zio = false →
      ∃ new, r.2.sent = s.sent ++ new ∧ ∀ f ∈ new, envelope_eof f = false) ∧
    (zio_eof s.zio = true → ∃ fr, r.2.sent = s.sent ++ [fr] ∧ envelope_eof fr = true) := by
  constructor
  · intro he
    have hI : zio_eof s.zio = false ∧
        ∃ new, s.sent = s.sent ++ new ∧ ∀ f ∈ new, envelope_eof f = false :=
      ⟨he, [], by simp, by simp⟩
    refine (zio_flush_loop_rule
      (fun t => zio_eof t.zio = false ∧
        ∃ new, t.sent = s.sent ++ new ∧ ∀ f ∈ new, envelope_eof f = false)
      (fun t => zio_eof t.zio = false ∧
        ∃ new, t.sent = s.sent ++ new ∧ ∀ f ∈ new, envelope_eof f = false)
      ?_ ?_ ?_ ?_ _ 0 s r hI h).2
    · intro t ht _ _
      exact ht
    · intro t ht _ _
      obtain ⟨out, rest, hr, _⟩ := zio_read_spec t.zio (zio_data_to_flush t.zio + 1)
      rw [hr]
      exact ht
    · intro t ht _ _
      obtain ⟨out, rest, hr, _⟩ := zio_read_spec t.zio (zio_data_to_flush t.zio + 1)
      rw [hr]
      obtain ⟨hte, new, hnew, hall⟩ := ht
      have hnp : zio_eof_pending
          ({ t with zio := { t.zio with buf := rest } } : Sys).zio = false := by
        have h0 : zio_eof { t.zio with buf := rest } = false := hte
        simp [zio_eof_pending, h0]
      have hres : zio_eof (zio_send { t with zio := { t.zio with buf := rest } } (some out)
            (out.length : Int).toNat).2.zio = false ∧
          ∃ new, (zio_send { t with zio := { t.zio with buf := rest } } (some out)
            (out.length : Int).toNat).2.sent = s.sent ++ new ∧
            ∀ f ∈ new, envelope_eof f = false := by
        refine ⟨?_, new ++ [(zio_json_object_create { t.zio with buf := rest } (some out)
          (out.length : Int).toNat).1], ?_, ?_⟩
        · rw [zio_send_eof_of_not_pending _ _ _ hnp]
          exact hte
        · rw [zio_send_sent]
          show t.sent ++ _ = _
          rw [hnew, List.append_assoc]
        · intro f hf
          rcases List.mem_append.mp hf with h1 | h1
          · exact hall f h1
          · rw [List.mem_singleton] at h1
            rw [h1, envelope_eof_create]
            exact hnp
      exact ⟨fun _ => hres, fun _ => hres⟩
    · intro t ht _ hte
      rw [ht.1] at hte
      cases hte
  · intro he
    refine zio_flush_loop_rule (fun t => t = s)
      (fun t => ∃ fr, t.sent = s.sent ++ [fr] ∧ envelope_eof fr = true)
      ?_ ?_ ?_ ?_ _ 0 s r rfl h
    · intro t ht _ hte
      subst ht
      rw [he] at hte
      cases hte
    · intro t ht hlen hn
      subst ht
      exfalso
      have hm : (zio_line_buffered t.zio && !zio_eof t.zio) = false := by simp [he]
      have hd : zio_data_to_flush t.zio = t.zio.buf.length := zio_data_to_flush_of_eof t.zio he
      rw [zio_read_all t.zio _ hm (by omega)] at hn
      simp only at hn
      omega
    · intro t ht hlen _
      subst ht
      have hm : (zio_line_buffered t.zio && !zio_eof t.zio) = false := by simp [he]
      have hd : zio_data_to_flush t.zio = t.zio.buf.length := zio_data_to_flush_of_eof t.zio he
      rw [zio_read_all t.zio _ hm (by omega)]
      have hp : zio_eof_pending ({ t with zio := { t.zio with buf := [] } } : Sys).zio = true := by
        have h0 : zio_eof { t.zio with buf := [] } = true := he
        simp [zio_eof_pending, h0, cbuf_used]
      constructor
      · intro _
        exact ⟨_, zio_send_sent _ _ _, by rw [envelope_eof_create]; exact hp⟩
      · intro hns
        rw [zio_send_eof_sent_of_pending _ _ _ hp] at hns
        cases hns
    · intro t ht hz _
      subst ht
      have hd : zio_data_to_flush t.zio = t.zio.buf.length := zio_data_to_flush_of_eof t.zio he
      have hp : zio_eof_pending t.zio = true := by
        have : t.zio.buf.length = 0 := by omega
        simp [zio_eof_pending, he, cbuf_used, this]
      constructor
      · intro _
        exact ⟨_, zio_send_sent _ _ _, by rw [envelope_eof_create]; exact hp⟩
      · intro hns
        rw [zio_send_eof_sent_of_pending _ _ _ hp] at hns
        cases hns

theorem EofLast.read_cb_last {s : Sys} (r : ReadRes) (hI : ReaderInv s) (hL : EofLast s) :
    ∀ q, zio_read_cb r s = some q → EofLast q.2 := by
  intro q hq
  cases hres : fd_read s.zio.srcfd r with
  | err e =>
    rw [zio_read_cb_of_read_error s r e hres] at hq
    cases hq
    exact hL
  | ok bs =>
    have hfd := fd_read_ok hres
    obtain ⟨_, _, he, _⟩ := hI
    have he0 : zio_eof s.zio = false := by
      by_contra hne
      exact hfd (he (by simpa using hne)).2.1
    have hold := hL.1 he0
    rw [zio_read_cb_ok s r bs hres] at hq
    by_cases hb : bs = []
    · subst hb
      rw [if_pos rfl] at hq
      obtain ⟨f, hf⟩ := zio_flush_returns
        { s with zio := zio_set_eof { s.zio with buf := s.zio.buf ++ [] }, rd := s.rd ++ [] }
      rw [hf] at hq
      have hset : zio_eof (zio_set_eof { s.zio with buf := s.zio.buf ++ [] }) = true :=
        zio_eof_set_eof _
      obtain ⟨fr, hfr, hfe⟩ := (zio_flush_frames _ f hf).2 hset
      obtain ⟨hsent, _⟩ := (zio_flush_spec _ f hf).2 hset
      dsimp only at hq
      rw [if_pos hsent] at hq
      cases hq
      have hlast : ∃ init fr, (zio_close { f.2 with polled := false }).2.sent = init ++ [fr] ∧
          envelope_eof fr = true ∧ ∀ g ∈ init, envelope_eof g = false := by
        rw [(zio_close_logs _).1]
        exact ⟨s.sent, fr, hfr, hfe, hold⟩
      refine ⟨fun h0 => ?_, fun _ => hlast⟩
      rw [zio_eof_close] at h0
      have h1 : zio_eof f.2.zio = true := by
        rw [(zio_flush_spec _ f hf).1.eof_eq]
        exact hset
      have h2 : zio_eof f.2.zio = false := h0
      rw [h1] at h2
      cases h2
    · rw [if_neg hb] at hq
      obtain ⟨f, hf⟩ := zio_flush_returns
        { s with zio := { s.zio with buf := s.zio.buf ++ bs }, rd := s.rd ++ bs }
      rw [hf] at hq
      obtain ⟨new, hnew, hall⟩ := (zio_flush_frames _ f hf).1 he0
      have hfe : zio_eof f.2.zio = false := by
        rw [(zio_flush_spec _ f hf).1.eof_eq]
        exact he0
      have hLf : EofLast f.2 := by
        refine ⟨fun _ g hg => ?_, fun h1 => ?_⟩
        · rw [hnew] at hg
          rcases List.mem_append.mp hg with h1 | h1
          · exact hold g h1
          · exact hall g h1
        · rw [hfe] at h1
          cases h1
      dsimp only at hq
      split_ifs at hq
      · cases hq
        refine ⟨fun h0 => ?_, fun h1 => ?_⟩
        · rw [(zio_close_logs _).1]
          exact hLf.1 hfe
        · rw [zio_eof_close] at h1
          have h2 : zio_eof f.2.zio = true := h1
          rw [hfe] at h2
          cases h2
      · cases hq
        exact hLf

theorem EofLast.config_last {s : Sys} {z1 : Zio} (hL : EofLast s) (h : ConfigRel s.zio z1) :
    EofLast { s with zio := z1 } := by
  obtain ⟨_, _, _, _, _, _, f7, _, _⟩ := h.fields
  unfold EofLast at hL ⊢
  show (zio_eof z1 = false → _) ∧ (zio_eof z1 = true → _)
  rw [f7]
  exact hL

/-- Support for C3: for every reader and every run without a call of `zio_flush` by the
owner (readable callbacks, which flush by themselves, and the other events), at most
one of the frames handed to the send callback carries `eof: true`, and it is the last
frame. -/
theorem reader_eof_frame_last (evs : List Event) :
    ∀ s : Sys, ReaderInv s → EofLast s → (∀ e ∈ evs, e ≠ Event.flush) →
      ∃ s1, run s evs = some s1 ∧ EofLast s1 := by
  induction evs with
  | nil => intro s _ hL _; exact ⟨s, rfl, hL⟩
  | cons e es ih =>
    intro s hI hL hnf
    have hes : ∀ e1 ∈ es, e1 ≠ Event.flush := fun e1 h1 => hnf e1 (List.mem_cons_of_mem _ h1)
    obtain ⟨s1, hs1, hI1⟩ := hI.step_reader e
    have hL1 : EofLast s1 := by
      have hr := hI.1
      have hw := zio_reader_not_writer s.zio hr
      cases e with
      | read_cb r =>
        obtain ⟨q, hq, _⟩ := hI.read_cb_reader r
        have : s1 = q.2 := by
          simp only [FluxZio.step, hr, if_true, hq, Option.map_some', Option.some.injEq] at hs1
          exact hs1.symm
        rw [this]
        exact hL.read_cb_last r hI q hq
      | writer_cb w =>
        simp only [FluxZio.step, hw, Bool.false_eq_true, if_false, Option.some.injEq] at hs1
        rw [← hs1]; exact hL
      | flush => exact absurd rfl (hnf Event.flush (List.mem_cons_self _ _))
      | write_json o w =>
        simp only [FluxZio.step, zio_write_json_not_writer s o w hw, Option.some.injEq] at hs1
        rw [← hs1]; exact hL
      | set_unbuffered =>
        simp only [FluxZio.step, Option.some.injEq] at hs1
        rw [← hs1]; exact hL.config_last (ConfigRel.set_unbuffered s.zio)
      | set_buffered n =>
        simp only [FluxZio.step, Option.some.injEq] at hs1
        rw [← hs1]; exact hL.config_last (ConfigRel.set_buffered s.zio n)
      | set_line_buffered =>
        simp only [FluxZio.step, Option.some.injEq] at hs1
        rw [← hs1]; exact hL.config_last (ConfigRel.set_line_buffered s.zio)
    obtain ⟨s2, hs2, hL2⟩ := ih s1 hI1 hL1 hes
    exact ⟨s2, by simp [FluxZio.run, hs1, hs2], hL2⟩

/-! ## The codec, continued -/

/-- C11: for a null envelope, and for every envelope whose number of top-level keys is
zero or greater than one, `zio_json_decode` returns -1 and leaves its output parameters
as they were. -/
theorem zio_json_decode_rejects_key_count (o : Option Envelope) (out : DecodeOut)
    (h : o = none ∨ ∃ env, o = some env ∧ (env.length = 0 ∨ 1 < env.length)) :
    zio_json_decode o out = (-1, out) := by
  rcases h with h | ⟨env, h, hl⟩
  · subst h
    rfl
  · subst h
    have hc : env.length ≠ 1 := by omega
    simp [zio_json_decode, hc]

/-- The theorem `zio_json_decode_rejects_key_count` at the empty envelope and at an envelope
with two keys. -/
theorem zio_json_decode_rejects_key_count_witness :
    zio_json_decode (some []) ex_out = (-1, ex_out) ∧
    zio_json_decode (some [("a", some [("eof", JVal.bool true)]), ("b", some [])]) ex_out =
      (-1, ex_out) :=
  ⟨zio_json_decode_rejects_key_count (some []) ex_out
      (Or.inr ⟨[], rfl, Or.inl rfl⟩),
    zio_json_decode_rejects_key_count
      (some [("a", some [("eof", JVal.bool true)]), ("b", some [])]) ex_out
      (Or.inr ⟨_, rfl, Or.inr (by decide)⟩)⟩

/-- C12: for every name, payload and eof flag, the envelope `zio_json_encode` builds has
exactly one top-level key, `name`; its value holds a `data` member (the base64 text of
the payload) exactly when the length is non-zero and the pointer non-null, then an `eof`
member with value true exactly when `eof` is true, and nothing else. -/
theorem zio_json_encode_shape (data : Option (List Byte)) (len : Nat) (eof : Bool)
    (name : String) :
    zio_json_encode data len eof name =
      [(name, some
        ((match data with
          | some bytes =>
            if len ≠ 0 then [("data", JVal.str (b64encode (bytes.take len)))] else []
          | none => []) ++
         (if eof = true then [("eof", JVal.bool true)] else [])))] := by
  cases data with
  | none =>
    cases eof <;>
    simp [zio_json_encode, zio_data_object, util_json_object_add_boolean,
      json_object_object_add, util_json_object_new_object]
  | some bytes =>
    by_cases hl : len = 0 <;> cases eof <;>
    simp [zio_json_encode, zio_data_object, hl, util_json_object_add_boolean,
      util_json_object_add_base64, json_object_object_add, util_json_object_new_object,
      List.lookup_cons, eof_beq_data]

/-! ## The writer, continued -/

/-- C13: for every writer and every envelope without a top-level key equal to the
writer's name, `zio_write_json` returns 0 and leaves the whole system (bytes written,
flags, ring, poll registration) and the envelope as they were. -/
theorem zio_write_json_other_name (s : Sys) (o : Envelope) (w : WriteRes)
    (hw : zio_writer s.zio = true) (h : json_object_object_get_ex o s.zio.name = none) :
    zio_write_json s o w = (0, s, o) := by
  simp [zio_write_json, hw, h]

/-- The theorem `zio_write_json_other_name` at the writer "in" and the envelope
`{"other": {"data": "eA=="}}`. -/
theorem zio_write_json_other_name_witness :
    zio_writer ex_writer.zio = true ∧
    json_object_object_get_ex ex_env_other ex_writer.zio.name = none ∧
    zio_write_json ex_writer ex_env_other (WriteRes.ok 1) = (0, ex_writer, ex_env_other) :=
  have h1 : zio_writer ex_writer.zio = true := by decide
  have h2 : json_object_object_get_ex ex_env_other ex_writer.zio.name = none := by decide
  ⟨h1, h2, zio_write_json_other_name ex_writer ex_env_other (WriteRes.ok 1) h1 h2⟩

/-! ## The EOF mark on a frame -/

/-- C20: for every object and every payload, the frame `zio_json_object_create` builds
carries `eof: true` exactly when EOF is set and the ring holds no octet at that moment;
in that case EOF_SENT is set in the flags word and otherwise the flags word is
unchanged; nothing else of the object changes.  So EOF_SENT, when this function sets
it, is set with EOF set and the ring empty. -/
theorem zio_json_object_create_eof (zio : Zio) (data : Option (List Byte)) (len : Nat) :
    envelope_eof (zio_json_object_create zio data len).1 =
      (zio_eof zio && cbuf_used zio.buf == 0) ∧
    (zio_json_object_create zio data len).2 =
      { zio with flags :=
          if (zio_eof zio && cbuf_used zio.buf == 0) = true then zio.flags ||| ZIO_EOF_SENT
          else zio.flags } ∧
    (zio_eof_sent (zio_json_object_create zio data len).2 = true →
      zio_eof_sent zio = true ∨ (zio_eof zio = true ∧ zio.buf = [])) := by
  refine ⟨envelope_eof_create zio data len, zio_json_object_create_zio zio data len, ?_⟩
  rw [zio_json_object_create_zio]
  intro h
  by_cases hp : zio_eof_pending zio = true
  · right
    simp only [zio_eof_pending, Bool.and_eq_true, beq_iff_eq, cbuf_used] at hp
    exact ⟨hp.1, List.length_eq_zero.mp hp.2⟩
  · left
    simp only [hp, if_false] at h
    exact h

/-! ## Flushing at EOF -/

/-- With EOF set and a non-empty ring, `zio_flush` makes one pass: it takes the whole
ring and sends it in one frame. -/
theorem zio_flush_at_eof (s : Sys) (he : zio_eof s.zio = true) (hb : s.zio.buf ≠ []) :
    zio_flush s =
      some (zio_send { s with zio := { s.zio with buf := [] } } (some s.zio.buf)
        s.zio.buf.length) := by
  have hlen : 0 < s.zio.buf.length := List.length_pos.mpr hb
  have hd : zio_data_to_flush s.zio = s.zio.buf.length := zio_data_to_flush_of_eof s.zio he
  have hm : (zio_line_buffered s.zio && !zio_eof s.zio) = false := by simp [he]
  have hr := zio_read_all s.zio (zio_data_to_flush s.zio + 1) hm (by omega)
  have hp : zio_eof_pending ({ s with zio := { s.zio with buf := [] } } : Sys).zio = true := by
    have h0 : zio_eof { s.zio with buf := [] } = true := he
    simp [zio_eof_pending, h0, cbuf_used]
  show zio_flush_loop (s.zio.buf.length + 1 + 1) 0 s = _
  rw [zio_flush_loop]
  dsimp only
  have hc : zio_data_to_flush s.zio > 0 ∨ zio_eof s.zio = true := Or.inr he
  have hpos : zio_data_to_flush s.zio > 0 := by omega
  rw [if_pos hc, if_pos hpos, hr]
  have hn : ¬ ((s.zio.buf.length : Int) ≤ 0) := by omega
  dsimp only
  rw [if_neg hn, Int.toNat_ofNat, if_pos (zio_send_eof_sent_of_pending _ _ _ hp)]

/-- C16: for every line-buffered reader whose ring holds a non-empty sequence of bytes
without a newline and whose EOF flag is set, with EOF_SENT clear, `zio_flush` returns
after handing exactly one frame to the send callback; the frame carries all the bytes
of the ring as data and `eof: true`; the ring is left empty and EOF_SENT set. -/
theorem zio_flush_partial_line_at_eof (s : Sys) ( _hl : zio_line_buffered s.zio = true)
    (hb : s.zio.buf ≠ []) ( _hn : NEWLINE ∉ s.zio.buf) (he : zio_eof s.zio = true)
    ( _hs : zio_eof_sent s.zio = false) :
    ∃ r fr, zio_flush s = some r ∧ r.2.sent = s.sent ++ [fr] ∧
      envelope_payload fr = s.zio.buf ∧ envelope_eof fr = true ∧
      r.2.zio.buf = [] ∧ zio_eof_sent r.2.zio = true := by
  have hp : zio_eof_pending ({ s with zio := { s.zio with buf := [] } } : Sys).zio = true := by
    have h0 : zio_eof { s.zio with buf := [] } = true := he
    simp [zio_eof_pending, h0, cbuf_used]
  refine ⟨_, _, zio_flush_at_eof s he hb, zio_send_sent _ _ _, ?_, ?_, ?_, ?_⟩
  · rw [envelope_payload_create]
    simp
  · rw [envelope_eof_create]
    exact hp
  · rw [zio_send_buf]
  · exact zio_send_eof_sent_of_pending _ _ _ hp

/-- The theorem `zio_flush_partial_line_at_eof` at a reader whose ring holds "there" at EOF,
and the run of the claim: the bytes "hi\nthere" and then end of file give the frame
"hi\n" without `eof` and then the frame "there" with `eof: true`. -/
theorem zio_flush_partial_line_at_eof_witness :
    (∃ r fr, zio_flush ex_reader_partial = some r ∧
      r.2.sent = ex_reader_partial.sent ++ [fr] ∧
      envelope_payload fr = ex_reader_partial.zio.buf ∧ envelope_eof fr = true ∧
      r.2.zio.buf = [] ∧ zio_eof_sent r.2.zio = true) ∧
    (run ex_reader [Event.read_cb (ReadRes.ok [104, 105, 10, 116, 104, 101, 114, 101]),
        Event.read_cb (ReadRes.ok [])]).map
        (fun s => s.sent.map (fun f => (envelope_payload f, envelope_eof f))) =
      some [([104, 105, 10], false), ([116, 104, 101, 114, 101], true)] :=
  ⟨zio_flush_partial_line_at_eof ex_reader_partial (by decide) (by decide) (by decide)
      (by decide) (by decide), by decide⟩

/-! ## EOF before any data on a writer -/

theorem zio_close_close_calls_eq (s : Sys) :
    (zio_close s).2.close_calls = s.close_calls + (if s.zio.close.isSome = true then 1 else 0) := by
  unfold zio_close
  cases hc : s.zio.close <;> simp [hc] <;> split_ifs <;> simp_all

/-- An envelope that carries only `eof: true` for an open, attached writer sets EOF and
registers the poll interest, and nothing else. -/
theorem zio_write_json_eof_only (s : Sys) (o : Envelope) (w : WriteRes) (x : Option JObj)
    (hw : zio_writer s.zio = true) (hopen : zio_closed s.zio = false)
    (hloop : s.zio.zloop = true) (hx : json_object_object_get_ex o s.zio.name = some x)
    (heof : util_json_object_get_boolean x "eof" false = (0, true))
    (hdata : util_json_object_get_base64 x "data" = none) :
    zio_write_json s o w =
      (0, { s with zio := zio_set_eof s.zio, polled := true },
        json_object_object_del o s.zio.name) := by
  have hc : zio_closed (zio_set_eof s.zio) = false := by rw [zio_closed_set_eof]; exact hopen
  have hp : zio_write_pending (zio_set_eof s.zio) = true := by
    simp [zio_write_pending, hc, zio_eof_set_eof]
  have hl : (zio_set_eof s.zio).zloop = true := hloop
  simp [zio_write_json, hw, hx, heof, hdata, hp, zio_writer_schedule, hl]

/-- C17: for every open writer attached to a loop whose ring is empty, `zio_write_json`
of an envelope addressed to it that carries only `eof: true` (it registers the poll
interest), followed by one writable callback, leaves the writer CLOSED with `dstfd` set
to -1, `zio_close` run once more than before and the close callback, if there is one,
run once more than before, the poll interest dropped, and no byte written to `dstfd`. -/
theorem eof_only_envelope_closes_writer (s : Sys) (o : Envelope) (w1 w2 : WriteRes)
    (x : Option JObj) (hw : zio_writer s.zio = true) (hopen : zio_closed s.zio = false)
    (hfd : ¬ s.zio.dstfd < 0) (hloop : s.zio.zloop = true) (hring : s.zio.buf = [])
    (hx : json_object_object_get_ex o s.zio.name = some x)
    (heof : util_json_object_get_boolean x "eof" false = (0, true))
    (hdata : util_json_object_get_base64 x "data" = none) :
    (zio_write_json s o w1).2.1.polled = true ∧
    zio_closed (zio_writer_cb w2 (zio_write_json s o w1).2.1).2.zio = true ∧
    (zio_writer_cb w2 (zio_write_json s o w1).2.1).2.zio.dstfd = -1 ∧
    (zio_writer_cb w2 (zio_write_json s o w1).2.1).2.close_runs = s.close_runs + 1 ∧
    (zio_writer_cb w2 (zio_write_json s o w1).2.1).2.close_calls =
      s.close_calls + (if s.zio.close.isSome = true then 1 else 0) ∧
    (zio_writer_cb w2 (zio_write_json s o w1).2.1).2.polled = false ∧
    (zio_writer_cb w2 (zio_write_json s o w1).2.1).2.wr = s.wr := by
  rw [zio_write_json_eof_only s o w1 x hw hopen hloop hx heof hdata]
  refine ⟨rfl, ?_⟩
  have hres : fd_write ({ s with zio := zio_set_eof s.zio, polled := true } : Sys).zio.dstfd
      ({ s with zio := zio_set_eof s.zio, polled := true } : Sys).zio.buf.length w2 =
      WriteRes.ok 0 := by
    have h1 : ({ s with zio := zio_set_eof s.zio, polled := true } : Sys).zio.dstfd =
        s.zio.dstfd := rfl
    have h2 : ({ s with zio := zio_set_eof s.zio, polled := true } : Sys).zio.buf.length = 0 := by
      show s.zio.buf.length = 0
      rw [hring]; rfl
    rw [h1, h2]
    simp [fd_write, hfd]
  rw [zio_writer_cb_ok _ w2 0 hres]
  have hpend : zio_eof_pending
      ({ ({ s with zio := zio_set_eof s.zio, polled := true } : Sys) with
          zio := { ({ s with zio := zio_set_eof s.zio, polled := true } : Sys).zio with
            buf := ({ s with zio := zio_set_eof s.zio, polled := true } : Sys).zio.buf.drop 0 },
          wr := ({ s with zio := zio_set_eof s.zio, polled := true } : Sys).wr ++
            ({ s with zio := zio_set_eof s.zio, polled := true } : Sys).zio.buf.take 0 } :
        Sys).zio = true := by
    have h0 : zio_eof (zio_set_eof s.zio) = true := zio_eof_set_eof s.zio
    have h1 : (zio_set_eof s.zio).buf = [] := hring
    simp only [zio_eof_pending, List.drop_zero, cbuf_used]
    simp [h1]
    exact h0
  have hcond : ((0 : Nat) : Int) = 0 ∧ zio_eof_pending
      ({ ({ s with zio := zio_set_eof s.zio, polled := true } : Sys) with
          zio := { ({ s with zio := zio_set_eof s.zio, polled := true } : Sys).zio with
            buf := ({ s with zio := zio_set_eof s.zio, polled := true } : Sys).zio.buf.drop 0 },
          wr := ({ s with zio := zio_set_eof s.zio, polled := true } : Sys).wr ++
            ({ s with zio := zio_set_eof s.zio, polled := true } : Sys).zio.buf.take 0 } :
        Sys).zio = true := by
    refine ⟨?_, hpend⟩
    simp
  rw [if_pos hcond]
  have hnp : zio_write_pending (zio_close
      ({ ({ s with zio := zio_set_eof s.zio, polled := true } : Sys) with
          zio := { ({ s with zio := zio_set_eof s.zio, polled := true } : Sys).zio with
            buf := ({ s with zio := zio_set_eof s.zio, polled := true } : Sys).zio.buf.drop 0 },
          wr := ({ s with zio := zio_set_eof s.zio, polled := true } : Sys).wr ++
            ({ s with zio := zio_set_eof s.zio, polled := true } : Sys).zio.buf.take 0 } :
        Sys)).2.zio = false := by
    simp [zio_write_pending, zio_closed_close]
  dsimp only
  rw [hnp]
  simp only [Bool.not_false, if_true]
  refine ⟨zio_closed_close _, zio_close_dstfd_writer _ hw, ?_, ?_, trivial, ?_⟩
  · rw [(zio_close_logs _).2.2.2.2]
  · rw [zio_close_close_calls_eq]
    rfl
  · rw [(zio_close_logs _).2.2.1]
    simp

/-- The theorem `eof_only_envelope_closes_writer` at the attached writer "in" with the
envelope `{"in": {"eof": true}}`. -/
theorem eof_only_envelope_closes_writer_witness :
    zio_writer ex_writer_attached.zio = true ∧ zio_closed ex_writer_attached.zio = false ∧
    ex_writer_attached.zio.buf = [] ∧
    zio_closed (zio_writer_cb (WriteRes.ok 0)
      (zio_write_json ex_writer_attached ex_env_eof (WriteRes.ok 0)).2.1).2.zio = true ∧
    (zio_writer_cb (WriteRes.ok 0)
      (zio_write_json ex_writer_attached ex_env_eof (WriteRes.ok 0)).2.1).2.zio.dstfd = -1 ∧
    (zio_writer_cb (WriteRes.ok 0)
      (zio_write_json ex_writer_attached ex_env_eof (WriteRes.ok 0)).2.1).2.close_runs = 1 :=
  have h := eof_only_envelope_closes_writer ex_writer_attached ex_env_eof (WriteRes.ok 0)
    (WriteRes.ok 0) (some [("eof", JVal.bool true)]) (by decide) (by decide) (by decide)
    (by decide) (by decide) (by decide) (by decide) (by decide)
  ⟨by decide, by decide, by decide, h.2.1, h.2.2.1, h.2.2.2.1⟩

/-! ## The value the write path returns -/

theorem zio_write_data_enqueue_rc (s : Sys) (buf : List Byte) (len n : Nat) :
    (zio_write_data_enqueue s buf len n).1 = 0 ∨ (zio_write_data_enqueue s buf len n).1 = -1 := by
  unfold zio_write_data_enqueue
  dsimp only
  split_ifs
  · right; rfl
  · left; rfl
  · left; rfl

theorem zio_write_data_written_rc (s : Sys) (buf : List Byte) (len n : Nat)
    (hrc : 0 ≤ (zio_write_data_written s buf len n).1)
    (hring : (zio_write_data_written s buf len n).2.zio.buf ≠ s.zio.buf) :
    (zio_write_data_written s buf len n).1 = 0 := by
  unfold zio_write_data_written at hrc hring ⊢
  by_cases h : n = len
  · rw [if_pos h] at hring
    exfalso
    apply hring
    dsimp only
    split_ifs
    · exact zio_close_buf s
    · rfl
  · rw [if_neg h] at hrc ⊢
    rcases zio_write_data_enqueue_rc s buf len n with h0 | h1
    · exact h0
    · rw [h1] at hrc
      omega

/-- C18: for every writer and every payload passed to `zio_write_data`: when the direct
write is made (ring empty, or writer unbuffered) and takes all `len` bytes, the result is
`len`; when the call does not fail and the ring has changed (part of the payload was
enqueued), the result is 0.  So the value `zio_write_json` returns for an accepted
envelope is not in general the number of bytes accepted: there is a call that accepts a
non-empty payload into the ring and returns 0. -/
theorem zio_write_data_return_value (s : Sys) (buf : List Byte) (len : Nat) (w : WriteRes) :
    (zio_buffer_empty s.zio = true → fd_write s.zio.dstfd len w = WriteRes.ok len →
      (zio_write_data s buf len w).1 = (len : Int)) ∧
    (0 ≤ (zio_write_data s buf len w).1 →
      (zio_write_data s buf len w).2.zio.buf ≠ s.zio.buf →
      (zio_write_data s buf len w).1 = 0) ∧
    (∃ (s0 : Sys) (o : Envelope) (w0 : WriteRes), (zio_write_json s0 o w0).1 = 0 ∧
      (zio_write_json s0 o w0).2.1.zio.buf = s0.zio.buf ++ payload_for s0.zio.name o ∧
      payload_for s0.zio.name o ≠ []) := by
  refine ⟨?_, ?_, ⟨ex_writer, ex_env_a, WriteRes.err EAGAIN, by decide⟩⟩
  · intro he hw
    simp [zio_write_data, he, hw, zio_write_data_written]
  · intro hrc hring
    unfold zio_write_data at hrc hring ⊢
    by_cases he : zio_buffer_empty s.zio = true
    · rw [if_pos he] at hrc hring ⊢
      cases hres : fd_write s.zio.dstfd len w with
      | err e =>
        rw [hres] at hrc hring
        dsimp only at hrc hring ⊢
        by_cases hag : e = EAGAIN
        · rw [if_pos hag] at hrc hring ⊢
          exact zio_write_data_written_rc s buf len 0 hrc hring
        · rw [if_neg hag] at hrc
          simp at hrc
      | ok n =>
        rw [hres] at hrc hring
        dsimp only at hrc hring ⊢
        exact zio_write_data_written_rc { s with wr := s.wr ++ buf.take n } buf len n hrc hring
    · rw [if_neg he] at hrc ⊢
      rcases zio_write_data_enqueue_rc s buf len 0 with h0 | h1
      · exact h0
      · rw [h1] at hrc
        omega

/-- The theorem `zio_write_data_return_value` at the writer "in" with the payload "hi": a
direct write that takes both bytes returns 2, one that takes a single byte returns 0. -/
theorem zio_write_data_return_value_witness :
    zio_buffer_empty ex_writer.zio = true ∧
    fd_write ex_writer.zio.dstfd 2 (WriteRes.ok 2) = WriteRes.ok 2 ∧
    (zio_write_data ex_writer [104, 105] 2 (WriteRes.ok 2)).1 = 2 ∧
    (zio_write_data ex_writer [104, 105] 2 (WriteRes.ok 1)).2.zio.buf ≠ ex_writer.zio.buf ∧
    (zio_write_data ex_writer [104, 105] 2 (WriteRes.ok 1)).1 = 0 :=
  have h1 := zio_write_data_return_value ex_writer [104, 105] 2 (WriteRes.ok 2)
  have h2 := zio_write_data_return_value ex_writer [104, 105] 2 (WriteRes.ok 1)
  have a1 : zio_buffer_empty ex_writer.zio = true := by decide
  have a2 : fd_write ex_writer.zio.dstfd 2 (WriteRes.ok 2) = WriteRes.ok 2 := by decide
  have a3 : (zio_write_data ex_writer [104, 105] 2 (WriteRes.ok 1)).2.zio.buf ≠
      ex_writer.zio.buf := by decide
  have a4 : 0 ≤ (zio_write_data ex_writer [104, 105] 2 (WriteRes.ok 1)).1 := by decide
  ⟨a1, a2, h1.1 a1 a2, a3, h2.2.1 a4 a3⟩

/-! ## Data after EOF on a writer -/

/-- C14, the code at the failing input: an unbuffered writer receives the payload "a"
while `dstfd` would block (the octet goes to the ring), then the envelope with the
payload "b" and `eof: true` while `dstfd` takes the byte: the direct write is made
although the ring holds "a", everything it was given is written and EOF is set, so
`zio_close` runs: CLOSED is set and `dstfd` is -1 while the ring still holds "a". -/
theorem unbuffered_writer_closes_with_queued_bytes :
    (run ex_unbuffered_writer [Event.write_json ex_env_a (WriteRes.err EAGAIN)]).map
        (fun s => (zio_closed s.zio, s.zio.buf)) = some (false, [97]) ∧
    (run ex_unbuffered_writer [Event.write_json ex_env_a (WriteRes.err EAGAIN),
        Event.write_json ex_env_b_eof (WriteRes.ok 1)]).map
        (fun s => (zio_closed s.zio, zio_eof s.zio, s.zio.buf, s.wr, s.zio.dstfd)) =
      some (true, true, [97], [98], -1) := by
  decide

theorem zio_write_data_written_close_drained (s : Sys) (buf : List Byte) (len n : Nat)
    (hnil : s.zio.buf = []) (hc : zio_closed s.zio = false)
    (h : zio_closed (zio_write_data_written s buf len n).2.zio = true) :
    zio_eof (zio_write_data_written s buf len n).2.zio = true ∧
      (zio_write_data_written s buf len n).2.zio.buf = [] := by
  unfold zio_write_data_written at h ⊢
  by_cases h1 : n = len
  · rw [if_pos h1] at h ⊢
    by_cases he : zio_eof s.zio = true
    · simp only [he, if_true] at h ⊢
      exact ⟨by rw [zio_eof_close]; exact he, by rw [zio_close_buf]; exact hnil⟩
    · simp only [he, Bool.false_eq_true, if_false] at h
      rw [hc] at h
      cases h
  · rw [if_neg h1] at h
    rw [(zio_write_data_enqueue_same s buf len n).2.2.2.1, hc] at h
    cases h

/-- In buffered mode `zio_write_data` sets CLOSED only with EOF set and the ring empty. -/
theorem zio_write_data_close_drained (s : Sys) (buf : List Byte) (len : Nat) (w : WriteRes)
    (hb : zio_buffered s.zio = true) (hc : zio_closed s.zio = false)
    (h : zio_closed (zio_write_data s buf len w).2.zio = true) :
    zio_eof (zio_write_data s buf len w).2.zio = true ∧
      (zio_write_data s buf len w).2.zio.buf = [] := by
  unfold zio_write_data at h ⊢
  by_cases he : zio_buffer_empty s.zio = true
  · have hnil : s.zio.buf = [] := by
      simp only [zio_buffer_empty, hb, Bool.not_true, Bool.false_or, beq_iff_eq, cbuf_used] at he
      exact List.length_eq_zero.mp he
    rw [if_pos he] at h ⊢
    cases hres : fd_write s.zio.dstfd len w with
    | err e =>
      rw [hres] at h
      dsimp only at h ⊢
      by_cases hag : e = EAGAIN
      · rw [if_pos hag] at h ⊢
        exact zio_write_data_written_close_drained s buf len 0 hnil hc h
      · rw [if_neg hag] at h
        rw [hc] at h
        cases h
    | ok n =>
      rw [hres] at h
      dsimp only at h ⊢
      exact zio_write_data_written_close_drained { s with wr := s.wr ++ buf.take n } buf len n
        hnil hc h
  · rw [if_neg he] at h
    rw [(zio_write_data_enqueue_same s buf len 0).2.2.2.1, hc] at h
    cases h

/-- Support for C14: in any buffering mode `zio_writer_cb` sets CLOSED only with EOF set
and the ring empty, and in buffered mode so does `zio_write_json`. -/
theorem buffered_writer_closes_drained (s : Sys) (o : Envelope) (w : WriteRes)
    (hc : zio_closed s.zio = false) :
    (zio_closed (zio_writer_cb w s).2.zio = true →
      zio_eof (zio_writer_cb w s).2.zio = true ∧ (zio_writer_cb w s).2.zio.buf = []) ∧
    (zio_buffered s.zio = true → zio_closed (zio_write_json s o w).2.1.zio = true →
      zio_eof (zio_write_json s o w).2.1.zio = true ∧ (zio_write_json s o w).2.1.zio.buf = []) := by
  constructor
  · cases hres : fd_write s.zio.dstfd s.zio.buf.length w with
    | err e =>
      rw [zio_writer_cb_err s w e hres]
      intro h
      exfalso
      split_ifs at h <;> (rw [hc] at h; cases h)
    | ok n =>
      rw [zio_writer_cb_ok s w n hres]
      have key : ∀ q : Int × Sys,
          ((fun q : Int × Sys =>
            if (!zio_write_pending q.2.zio) = true then (q.1, { q.2 with polled := false })
            else q) q).2.zio = q.2.zio := by
        intro q
        dsimp only
        split_ifs <;> rfl
      rw [key]
      intro h
      split_ifs at h ⊢ with hcond
      · refine ⟨?_, ?_⟩
        · rw [zio_eof_close]
          have := hcond.2
          simp only [zio_eof_pending, Bool.and_eq_true] at this
          exact this.1
        · rw [zio_close_buf]
          have := hcond.2
          simp only [zio_eof_pending, Bool.and_eq_true, beq_iff_eq, cbuf_used] at this
          exact List.length_eq_zero.mp this.2
      · have h1 : zio_closed s.zio = true := h
        rw [hc] at h1
        cases h1
  · intro hb
    unfold zio_write_json
    by_cases hw : zio_writer s.zio = true
    · simp only [hw, Bool.not_true, Bool.false_eq_true, if_false]
      cases hx : json_object_object_get_ex o s.zio.name with
      | none =>
        intro h
        rw [hc] at h
        cases h
      | some x =>
        dsimp only
        have sched : ∀ q : Sys,
            (if zio_write_pending q.zio = true then (zio_writer_schedule q).2 else q).zio =
              q.zio := by
          intro q
          unfold zio_writer_schedule
          split_ifs <;> rfl
        rw [sched]
        have key : ∀ s1 : Sys, zio_buffered s1.zio = true → zio_closed s1.zio = false →
            zio_closed (match util_json_object_get_base64 x "data" with
              | some d => zio_write_data s1 d d.length w
              | none => (0, s1)).2.zio = true →
            zio_eof (match util_json_object_get_base64 x "data" with
              | some d => zio_write_data s1 d d.length w
              | none => (0, s1)).2.zio = true ∧
            (match util_json_object_get_base64 x "data" with
              | some d => zio_write_data s1 d d.length w
              | none => (0, s1)).2.zio.buf = [] := by
          intro s1 hb1 hc1
          cases util_json_object_get_base64 x "data" with
          | none =>
            intro h
            have h1 : zio_closed s1.zio = true := h
            rw [hc1] at h1
            cases h1
          | some d => exact zio_write_data_close_drained s1 d d.length w hb1 hc1
        split_ifs
        · exact key _ (by rw [zio_buffered_set_eof]; exact hb)
            (by rw [zio_closed_set_eof]; exact hc)
        · exact key _ hb hc
    · have hw0 : zio_writer s.zio = false := by simpa using hw
      simp only [hw0, Bool.not_false, if_true]
      intro h
      rw [hc] at h
      cases h

/-! ## The buffering flags -/

theorem ModeSame.mode_refl (z : Zio) : ModeSame z z := ⟨rfl, rfl⟩

theorem ModeSame.mode_trans {a b c : Zio} (h1 : ModeSame a b) (h2 : ModeSame b c) :
    ModeSame a c := ⟨h2.1.trans h1.1, h2.2.trans h1.2⟩

theorem ModeInv.of_mode_same {z z1 : Zio} (hI : ModeInv z) (h : ModeSame z z1) : ModeInv z1 := by
  unfold ModeInv at hI ⊢
  rw [h.1, h.2]
  exact hI

theorem ModeSame.of_testBit {z z1 : Zio} (h2 : z1.flags.testBit 2 = z.flags.testBit 2)
    (h4 : z1.flags.testBit 4 = z.flags.testBit 4) : ModeSame z z1 := by
  constructor
  · rw [zio_buffered_eq, zio_buffered_eq, h2]
  · rw [zio_line_buffered_eq, zio_line_buffered_eq, h4]

theorem ModeSame.set_eof_mode (z : Zio) : ModeSame z (zio_set_eof z) := by
  apply ModeSame.of_testBit
  · show (z.flags ||| ZIO_EOF).testBit 2 = _
    rw [Nat.testBit_or, ZIO_EOF_testBit]; simp
  · show (z.flags ||| ZIO_EOF).testBit 4 = _
    rw [Nat.testBit_or, ZIO_EOF_testBit]; simp

theorem ModeSame.close_mode (s : Sys) : ModeSame s.zio (zio_close s).2.zio := by
  apply ModeSame.of_testBit
  · rw [zio_close_flags, testBit_or_CLOSED_ne _ _ (by decide)]
  · rw [zio_close_flags, testBit_or_CLOSED_ne _ _ (by decide)]

theorem FlushRel.mode_same {s t : Sys} (h : FlushRel s t) : ModeSame s.zio t.zio :=
  ModeSame.of_testBit (h.testBit_eq 2 (by decide)) (h.testBit_eq 4 (by decide))

/-- The callback `zio_read_cb` returns, from every state and for every outcome of the
read. -/
theorem zio_read_cb_returns (r : ReadRes) (s : Sys) : ∃ q, zio_read_cb r s = some q := by
  cases hres : fd_read s.zio.srcfd r with
  | err e => exact ⟨_, zio_read_cb_of_read_error s r e hres⟩
  | ok bs =>
    rw [zio_read_cb_ok s r bs hres]
    split_ifs
    · obtain ⟨f, hf⟩ := zio_flush_returns
        { s with zio := zio_set_eof { s.zio with buf := s.zio.buf ++ bs }, rd := s.rd ++ bs }
      rw [hf]
      dsimp only
      split_ifs <;> exact ⟨_, rfl⟩
    · obtain ⟨f, hf⟩ := zio_flush_returns
        { s with zio := { s.zio with buf := s.zio.buf ++ bs }, rd := s.rd ++ bs }
      rw [hf]
      dsimp only
      split_ifs <;> exact ⟨_, rfl⟩

theorem ModeSame.read_cb_mode (r : ReadRes) (s : Sys) (q : Int × Sys)
    (h : zio_read_cb r s = some q) : ModeSame s.zio q.2.zio := by
  cases hres : fd_read s.zio.srcfd r with
  | err e =>
    rw [zio_read_cb_of_read_error s r e hres] at h
    cases h
    exact ModeSame.mode_refl _
  | ok bs =>
    rw [zio_read_cb_ok s r bs hres] at h
    have key : ∀ s2 : Sys, ModeSame s.zio s2.zio →
        (match zio_flush s2 with
          | none => none
          | some f =>
            if zio_eof_sent f.2.zio then some (zio_close { f.2 with polled := false })
            else some (0, f.2)) = some q → ModeSame s.zio q.2.zio := by
      intro s2 h2 hq
      obtain ⟨f, hf⟩ := zio_flush_returns s2
      rw [hf] at hq
      have hm := h2.mode_trans (zio_flush_spec s2 f hf).1.mode_same
      dsimp only at hq
      split_ifs at hq
      · cases hq
        exact hm.mode_trans (ModeSame.close_mode { f.2 with polled := false })
      · cases hq
        exact hm
    split_ifs at h
    · exact key
        { s with zio := zio_set_eof { s.zio with buf := s.zio.buf ++ bs }, rd := s.rd ++ bs }
        ((show ModeSame s.zio { s.zio with buf := s.zio.buf ++ bs } from ⟨rfl, rfl⟩).mode_trans
          (ModeSame.set_eof_mode _)) h
    · exact key { s with zio := { s.zio with buf := s.zio.buf ++ bs }, rd := s.rd ++ bs }
        ⟨rfl, rfl⟩ h

theorem ModeSame.writer_cb_mode (w : WriteRes) (s : Sys) :
    ModeSame s.zio (zio_writer_cb w s).2.zio := by
  cases hres : fd_write s.zio.dstfd s.zio.buf.length w with
  | err e =>
    rw [zio_writer_cb_err s w e hres]
    split_ifs <;> exact ModeSame.mode_refl _
  | ok n =>
    rw [zio_writer_cb_ok s w n hres]
    have key : ∀ q : Int × Sys,
        ((fun q : Int × Sys =>
          if (!zio_write_pending q.2.zio) = true then (q.1, { q.2 with polled := false })
          else q) q).2.zio = q.2.zio := by
      intro q
      dsimp only
      split_ifs <;> rfl
    rw [key]
    split_ifs
    · exact ModeSame.close_mode _
    · exact ⟨rfl, rfl⟩

theorem ModeSame.write_data_mode (s : Sys) (buf : List Byte) (len : Nat) (w : WriteRes) :
    ModeSame s.zio (zio_write_data s buf len w).2.zio := by
  have henq : ∀ (t : Sys) (n : Nat), ModeSame t.zio (zio_write_data_enqueue t buf len n).2.zio := by
    intro t n
    unfold zio_write_data_enqueue
    dsimp only
    split_ifs <;> exact ⟨rfl, rfl⟩
  have hwr : ∀ (t : Sys) (n : Nat), ModeSame t.zio (zio_write_data_written t buf len n).2.zio := by
    intro t n
    unfold zio_write_data_written
    split_ifs
    · exact ModeSame.close_mode t
    · exact ModeSame.mode_refl _
    · exact henq t n
  unfold zio_write_data
  split_ifs
  · cases fd_write s.zio.dstfd len w with
    | err e =>
      dsimp only
      split_ifs
      · exact hwr s 0
      · exact ModeSame.mode_refl _
    | ok n => exact hwr { s with wr := s.wr ++ buf.take n } n
  · exact henq s 0

theorem ModeSame.write_json_mode (s : Sys) (o : Envelope) (w : WriteRes) :
    ModeSame s.zio (zio_write_json s o w).2.1.zio := by
  unfold zio_write_json
  split_ifs
  · exact ModeSame.mode_refl _
  · cases json_object_object_get_ex o s.zio.name with
    | none => exact ModeSame.mode_refl _
    | some x =>
      dsimp only
      have sched : ∀ q : Sys,
          (if zio_write_pending q.zio = true then (zio_writer_schedule q).2 else q).zio =
            q.zio := by
        intro q
        unfold zio_writer_schedule
        split_ifs <;> rfl
      rw [sched]
      have key : ∀ s1 : Sys, ModeSame s.zio s1.zio →
          ModeSame s.zio (match util_json_object_get_base64 x "data" with
            | some d => zio_write_data s1 d d.length w
            | none => (0, s1)).2.zio := by
        intro s1 h1
        cases util_json_object_get_base64 x "data" with
        | none => exact h1
        | some d => exact h1.mode_trans (ModeSame.write_data_mode s1 d d.length w)
      split_ifs
      · exact key _ (ModeSame.set_eof_mode s.zio)
      · exact key _ (ModeSame.mode_refl _)

theorem ModeSame.set_quiet_mode (z : Zio) : ModeSame z (zio_set_quiet z).2 := by
  have m2 : (UINT_MASK ^^^ ZIO_VERBOSE).testBit 2 = true := by decide
  have m4 : (UINT_MASK ^^^ ZIO_VERBOSE).testBit 4 = true := by decide
  apply ModeSame.of_testBit
  · show (z.flags &&& _).testBit 2 = _
    rw [Nat.testBit_and, m2, Bool.and_true]
  · show (z.flags &&& _).testBit 4 = _
    rw [Nat.testBit_and, m4, Bool.and_true]

theorem ModeSame.set_debug_mode (z : Zio) : ModeSame z (zio_set_debug z).2 := by
  apply ModeSame.of_testBit
  · show (z.flags ||| ZIO_VERBOSE).testBit 2 = _
    rw [Nat.testBit_or, ZIO_VERBOSE_testBit]; simp
  · show (z.flags ||| ZIO_VERBOSE).testBit 4 = _
    rw [Nat.testBit_or, ZIO_VERBOSE_testBit]; simp

theorem ModeInv.set_buffered_inv (z : Zio) (n : Nat) : ModeInv (zio_set_buffered z n).2 := by
  intro _
  rw [zio_buffered_eq]
  show (z.flags ||| ZIO_BUFFERED).testBit 2 = true
  rw [Nat.testBit_or, ZIO_BUFFERED_testBit]
  simp

theorem ModeInv.set_line_buffered_inv (z : Zio) : ModeInv (zio_set_line_buffered z).2 := by
  intro _
  rw [zio_buffered_eq]
  show ((z.flags ||| ZIO_BUFFERED) ||| ZIO_LINE_BUFFERED).testBit 2 = true
  rw [Nat.testBit_or, Nat.testBit_or, ZIO_BUFFERED_testBit]
  simp

theorem ModeInv.set_unbuffered_inv (z : Zio) : ModeInv (zio_set_unbuffered z).2 := by
  intro h
  exfalso
  have m4 : (UINT_MASK ^^^ (ZIO_LINE_BUFFERED ||| ZIO_BUFFERED)).testBit 4 = false := by decide
  rw [zio_line_buffered_eq] at h
  have h1 : (z.flags &&& (UINT_MASK ^^^ (ZIO_LINE_BUFFERED ||| ZIO_BUFFERED))).testBit 4 = true := h
  rw [Nat.testBit_and, m4, Bool.and_false] at h1
  cases h1

/-- C19: LINE_BUFFERED implies BUFFERED for every object `zio_allocate` returns; every
mutator keeps it (`zio_set_buffered`, `zio_set_line_buffered`, `zio_set_unbuffered`,
`zio_set_quiet`, `zio_set_debug`, `zio_set_send_cb`, `zio_set_close_cb`); and every I/O
step returns and keeps it (`zio_flush`, `zio_read_cb`, `zio_writer_cb`,
`zio_write_json`, `zio_close`). -/
theorem line_buffered_implies_buffered :
    (∀ (name : String) (reader : Bool) (send : SendFn), ModeInv (zio_allocate name reader send)) ∧
    (∀ (z : Zio) (n : Nat) (sendf : SendFn) (closef : Option (Nat → Int)), ModeInv z →
      ModeInv (zio_set_buffered z n).2 ∧ ModeInv (zio_set_line_buffered z).2 ∧
      ModeInv (zio_set_unbuffered z).2 ∧ ModeInv (zio_set_quiet z).2 ∧
      ModeInv (zio_set_debug z).2 ∧ ModeInv (zio_set_send_cb z sendf).2 ∧
      ModeInv (zio_set_close_cb z closef).2) ∧
    (∀ (s : Sys) (r : ReadRes) (w : WriteRes) (o : Envelope), ModeInv s.zio →
      (∃ q, zio_flush s = some q ∧ ModeInv q.2.zio) ∧
      (∃ q, zio_read_cb r s = some q ∧ ModeInv q.2.zio) ∧
      ModeInv (zio_writer_cb w s).2.zio ∧ ModeInv (zio_write_json s o w).2.1.zio ∧
      ModeInv (zio_close s).2.zio) := by
  refine ⟨?_, ?_, ?_⟩
  · intro name reader send _
    rw [zio_buffered_eq]
    show (ZIO_BUFFERED ||| ZIO_LINE_BUFFERED).testBit 2 = true
    decide
  · intro z n sendf closef hI
    exact ⟨ModeInv.set_buffered_inv z n, ModeInv.set_line_buffered_inv z,
      ModeInv.set_unbuffered_inv z, hI.of_mode_same (ModeSame.set_quiet_mode z),
      hI.of_mode_same (ModeSame.set_debug_mode z), hI, hI⟩
  · intro s r w o hI
    obtain ⟨q1, h1⟩ := zio_flush_returns s
    obtain ⟨q2, h2⟩ := zio_read_cb_returns r s
    exact ⟨⟨q1, h1, hI.of_mode_same (zio_flush_spec s q1 h1).1.mode_same⟩,
      ⟨q2, h2, hI.of_mode_same (ModeSame.read_cb_mode r s q2 h2)⟩,
      hI.of_mode_same (ModeSame.writer_cb_mode w s),
      hI.of_mode_same (ModeSame.write_json_mode s o w),
      hI.of_mode_same (ModeSame.close_mode s)⟩

/-- The theorem `line_buffered_implies_buffered` at the reader "out": as allocated, after
`zio_set_unbuffered`, and after a readable callback that reads "h\n". -/
theorem line_buffered_implies_buffered_witness :
    ModeInv ex_reader.zio ∧ ModeInv (zio_set_unbuffered ex_reader.zio).2 ∧
    (∃ q, zio_read_cb (ReadRes.ok [104, 10]) ex_reader = some q ∧ ModeInv q.2.zio) :=
  have h0 : ModeInv ex_reader.zio := line_buffered_implies_buffered.1 "out" true send_ok
  ⟨h0, (line_buffered_implies_buffered.2.1 ex_reader.zio 0 send_ok none h0).2.2.1,
    (line_buffered_implies_buffered.2.2 ex_reader (ReadRes.ok [104, 10]) (WriteRes.ok 0) []
      h0).2.1⟩

/-! ## Termination of `zio_flush` and the number of frames -/

/-- More fuel does not change what the loop of `zio_flush` returns. -/
theorem zio_flush_loop_more_fuel :
    ∀ (fuel : Nat) (rc : Int) (s : Sys) (r : Int × Sys),
      zio_flush_loop fuel rc s = some r → zio_flush_loop (fuel + 1) rc s = some r := by
  intro fuel
  induction fuel with
  | zero => intro rc s r h; simp [zio_flush_loop] at h
  | succ n ih =>
    intro rc s r h
    rw [zio_flush_loop] at h ⊢
    dsimp only at h ⊢
    split_ifs at h ⊢ <;> first | exact h | exact ih _ _ _ h

theorem zio_flush_loop_fuel_le (fuel k : Nat) (rc : Int) (s : Sys) (r : Int × Sys)
    (h : zio_flush_loop fuel rc s = some r) : zio_flush_loop (fuel + k) rc s = some r := by
  induction k with
  | zero => exact h
  | succ m ih => exact zio_flush_loop_more_fuel _ _ _ _ ih

/-- C21: from every state - any buffering flags, EOF flag, ring content - and for every
send callback, whatever it returns, `zio_flush` returns: the loop ends within
`used + 2` evaluations of its condition and more fuel gives the same result; the
frames it hands to the send callback are appended to the log, and there are at most
`used + 1` of them, `used` being the number of bytes in the ring at entry. -/
theorem zio_flush_terminates_bounded (s : Sys) :
    ∃ (r : Int × Sys) (new : List Envelope), zio_flush s = some r ∧
      (∀ fuel, cbuf_used s.zio.buf + 2 ≤ fuel → zio_flush_loop fuel 0 s = some r) ∧
      r.2.sent = s.sent ++ new ∧ new.length ≤ cbuf_used s.zio.buf + 1 := by
  obtain ⟨r, hr⟩ := zio_flush_returns s
  have hQ : ∃ new, r.2.sent = s.sent ++ new ∧ new.length ≤ s.zio.buf.length + 1 := by
    refine zio_flush_loop_rule
      (fun t => ∃ new, t.sent = s.sent ++ new ∧ new.length + t.zio.buf.length ≤ s.zio.buf.length)
      (fun t => ∃ new, t.sent = s.sent ++ new ∧ new.length ≤ s.zio.buf.length + 1)
      ?_ ?_ ?_ ?_ _ 0 s r ⟨[], by simp, by simp⟩ hr
    · rintro t ⟨new, h1, h2⟩ _ _
      exact ⟨new, h1, by omega⟩
    · rintro t ⟨new, h1, h2⟩ _ _
      exact ⟨new, h1, by omega⟩
    · rintro t ⟨new, h1, h2⟩ _ hn
      obtain ⟨out, rest, hrd, hsplit⟩ := zio_read_spec t.zio (zio_data_to_flush t.zio + 1)
      rw [hrd] at hn ⊢
      have hout : 0 < out.length := by
        simp only at hn
        omega
      have hlen : out.length + rest.length = t.zio.buf.length := by
        rw [← hsplit, List.length_append]
      have hsent : (zio_send { t with zio := { t.zio with buf := rest } } (some out)
          (out.length : Int).toNat).2.sent =
          s.sent ++ (new ++ [(zio_json_object_create { t.zio with buf := rest } (some out)
            (out.length : Int).toNat).1]) := by
        rw [zio_send_sent]
        show t.sent ++ _ = _
        rw [h1, List.append_assoc]
      have hbuf : (zio_send { t with zio := { t.zio with buf := rest } } (some out)
          (out.length : Int).toNat).2.zio.buf = rest := by
        rw [zio_send_buf]
      constructor
      · intro _
        exact ⟨_, hsent, by rw [List.length_append, List.length_singleton]; omega⟩
      · intro _
        refine ⟨_, hsent, ?_⟩
        rw [hbuf, List.length_append, List.length_singleton]
        omega
    · rintro t ⟨new, h1, h2⟩ hz he
      have hsent : (zio_send t none 0).2.sent =
          s.sent ++ (new ++ [(zio_json_object_create t.zio none 0).1]) := by
        rw [zio_send_sent, h1, List.append_assoc]
      constructor
      · intro _
        exact ⟨_, hsent, by rw [List.length_append, List.length_singleton]; omega⟩
      · intro hns
        exfalso
        have hd : zio_data_to_flush t.zio = t.zio.buf.length := zio_data_to_flush_of_eof t.zio he
        have hp : zio_eof_pending t.zio = true := by
          have : t.zio.buf.length = 0 := by omega
          simp [zio_eof_pending, he, cbuf_used, this]
        rw [zio_send_eof_sent_of_pending _ _ _ hp] at hns
        cases hns
  obtain ⟨new, h1, h2⟩ := hQ
  refine ⟨r, new, hr, ?_, h1, h2⟩
  intro fuel hf
  have := zio_flush_loop_fuel_le (cbuf_used s.zio.buf + 2) (fuel - (cbuf_used s.zio.buf + 2)) 0 s r hr
  rw [show cbuf_used s.zio.buf + 2 + (fuel - (cbuf_used s.zio.buf + 2)) = fuel by omega] at this
  exact this

/-- The bound of `zio_flush_terminates_bounded` is reached: a reader at EOF with an
empty ring sends one frame; a line-buffered reader whose ring holds the two lines "\n"
and "\n" sends both in one frame. -/
theorem zio_flush_frame_count_examples :
    (zio_flush { ex_reader with zio := zio_set_eof ex_reader.zio }).map
        (fun q => q.2.sent.length) = some 1 ∧
    (zio_flush { ex_reader with zio := { ex_reader.zio with buf := [10, 10] } }).map
        (fun q => q.2.sent.map envelope_payload) = some [[10, 10]] := by
  decide

/-! ## One frame for each call of `zio_flush` -/

theorem cbuf_lines_used_take (cb : List Byte) (len : Nat) (h : cb.length ≤ len) :
    cbuf_lines_used (cb.take len) = cbuf_lines_used cb := by
  rw [List.take_of_length_le h]

/-- In line mode without EOF, a ring that holds no complete line gives nothing to
`zio_read`. -/
theorem zio_read_no_line (z : Zio) (len : Nat)
    (hm : (zio_line_buffered z && !zio_eof z) = true) (h0 : cbuf_lines_used z.buf = 0)
    (hlen : z.buf.length ≤ len) : (zio_read z len).1 = 0 := by
  unfold zio_read cbuf_read_line
  rw [if_pos hm, if_pos rfl, cbuf_lines_used_take _ _ hlen, h0]
  rfl

/-- In line mode without EOF, `zio_read` of more than the ring holds leaves no complete
line in the ring. -/
theorem zio_read_lines_rest (z : Zio) (len : Nat)
    (hm : (zio_line_buffered z && !zio_eof z) = true) (hlen : z.buf.length ≤ len) :
    cbuf_lines_used (zio_read z len).2.2.buf = 0 := by
  unfold zio_read cbuf_read_line
  rw [if_pos hm, if_pos rfl, cbuf_lines_used_take _ _ hlen]
  exact cbuf_lines_used_drop z.buf

theorem zio_read_flags (z : Zio) (len : Nat) : (zio_read z len).2.2.flags = z.flags := by
  obtain ⟨out, rest, hr, _⟩ := zio_read_spec z len
  rw [hr]

theorem zio_read_send (z : Zio) (len : Nat) : (zio_read z len).2.2.send = z.send := by
  obtain ⟨out, rest, hr, _⟩ := zio_read_spec z len
  rw [hr]

/-- A positive result of `zio_data_to_flush` is the number of octets in the ring. -/
theorem zio_data_to_flush_pos (z : Zio) (h : 0 < zio_data_to_flush z) :
    zio_data_to_flush z = z.buf.length := by
  rcases zio_data_to_flush_eq z with h0 | h1
  · omega
  · exact h1

/-- A pass of the loop of `zio_flush` over a state without EOF whose ring is empty, or
holds no complete line in line mode, sends nothing and returns the result it was given. -/
theorem zio_flush_loop_idle (fuel : Nat) (rc : Int) (t : Sys) (he : zio_eof t.zio = false)
    (h : t.zio.buf = [] ∨ (zio_line_buffered t.zio = true ∧ cbuf_lines_used t.zio.buf = 0)) :
    ∃ u, zio_flush_loop (fuel + 1) rc t = some (rc, u) ∧ u.sent = t.sent := by
  rw [zio_flush_loop]
  dsimp only
  by_cases hlen : zio_data_to_flush t.zio > 0
  · have hc : zio_data_to_flush t.zio > 0 ∨ zio_eof t.zio = true := Or.inl hlen
    rw [if_pos hc, if_pos hlen]
    have hd := zio_data_to_flush_pos t.zio hlen
    rcases h with h | ⟨hl, h0⟩
    · rw [h] at hd
      simp only [List.length_nil] at hd
      omega
    · have hm : (zio_line_buffered t.zio && !zio_eof t.zio) = true := by simp [hl, he]
      have hr := zio_read_no_line t.zio (zio_data_to_flush t.zio + 1) hm h0 (by omega)
      rw [if_pos (by rw [hr]), if_neg (by rw [hr]; exact lt_irrefl _)]
      exact ⟨_, rfl, rfl⟩
  · have hc : ¬ (zio_data_to_flush t.zio > 0 ∨ zio_eof t.zio = true) := by
      rintro (h1 | h1)
      · exact hlen h1
      · rw [he] at h1; cases h1
    rw [if_neg hc]
    exact ⟨_, rfl, rfl⟩

theorem zio_send_fst (s : Sys) (p : Option (List Byte)) (len : Nat) :
    (zio_send s p len).1 = s.zio.send s.sent (zio_json_object_create s.zio p len).1 := by
  unfold zio_send
  simp only [zio_json_object_create_zio]

theorem zio_send_flags_of_not_pending (s : Sys) (p : Option (List Byte)) (len : Nat)
    (h : zio_eof_pending s.zio = false) : (zio_send s p len).2.zio.flags = s.zio.flags := by
  rw [zio_send_sys]
  simp [h]

/-- One call of `zio_flush` hands at most one frame to the send callback, and when it
hands one over it returns what the callback returned for it. -/
theorem zio_flush_one_frame (s : Sys) :
    ∃ r, zio_flush s = some r ∧
      (r.2.sent = s.sent ∨
        ∃ fr, r.2.sent = s.sent ++ [fr] ∧ r.1 = s.zio.send s.sent fr) := by
  unfold zio_flush
  rw [show cbuf_used s.zio.buf + 2 = (cbuf_used s.zio.buf + 1) + 1 from rfl, zio_flush_loop]
  dsimp only
  by_cases hlen : zio_data_to_flush s.zio > 0
  · have hc : zio_data_to_flush s.zio > 0 ∨ zio_eof s.zio = true := Or.inl hlen
    rw [if_pos hc, if_pos hlen]
    have hd := zio_data_to_flush_pos s.zio hlen
    by_cases hn : (zio_read s.zio (zio_data_to_flush s.zio + 1)).1 ≤ 0
    · rw [if_pos hn]
      exact ⟨_, rfl, Or.inl rfl⟩
    · rw [if_neg hn]
      have hsent := zio_send_sent { s with zio := (zio_read s.zio (zio_data_to_flush s.zio + 1)).2.2 }
        (some (zio_read s.zio (zio_data_to_flush s.zio + 1)).2.1)
        (zio_read s.zio (zio_data_to_flush s.zio + 1)).1.toNat
      have hfst := zio_send_fst { s with zio := (zio_read s.zio (zio_data_to_flush s.zio + 1)).2.2 }
        (some (zio_read s.zio (zio_data_to_flush s.zio + 1)).2.1)
        (zio_read s.zio (zio_data_to_flush s.zio + 1)).1.toNat
      simp only [zio_read_send] at hfst
      by_cases hes : zio_eof_sent (zio_send
          { s with zio := (zio_read s.zio (zio_data_to_flush s.zio + 1)).2.2 }
          (some (zio_read s.zio (zio_data_to_flush s.zio + 1)).2.1)
          (zio_read s.zio (zio_data_to_flush s.zio + 1)).1.toNat).2.zio = true
      · rw [if_pos hes]
        exact ⟨_, rfl, Or.inr ⟨_, hsent, hfst⟩⟩
      · rw [if_neg hes]
        -- the state after the send: no EOF, and nothing left that a pass could send
        have hm_or : (zio_line_buffered s.zio && !zio_eof s.zio) = true ∨
            (zio_line_buffered s.zio && !zio_eof s.zio) = false := by
          cases (zio_line_buffered s.zio && !zio_eof s.zio) <;> simp
        have hidle : zio_eof (zio_read s.zio (zio_data_to_flush s.zio + 1)).2.2 = false ∧
            ((zio_read s.zio (zio_data_to_flush s.zio + 1)).2.2.buf = [] ∨
              (zio_line_buffered (zio_read s.zio (zio_data_to_flush s.zio + 1)).2.2 = true ∧
                cbuf_lines_used (zio_read s.zio (zio_data_to_flush s.zio + 1)).2.2.buf = 0)) := by
          rcases hm_or with hm | hm
          · have hl : zio_line_buffered s.zio = true := by
              cases h : zio_line_buffered s.zio <;> simp [h] at hm ⊢
            have he : zio_eof s.zio = false := by
              cases h : zio_eof s.zio <;> simp [h] at hm ⊢
            refine ⟨?_, Or.inr ⟨?_, zio_read_lines_rest _ _ hm (by omega)⟩⟩
            · rw [zio_eof_eq, zio_read_flags, ← zio_eof_eq]; exact he
            · rw [zio_line_buffered_eq, zio_read_flags, ← zio_line_buffered_eq]; exact hl
          · have hall := zio_read_all s.zio (zio_data_to_flush s.zio + 1) hm (by omega)
            have hb : (zio_read s.zio (zio_data_to_flush s.zio + 1)).2.2.buf = [] := by
              rw [hall]
            refine ⟨?_, Or.inl hb⟩
            by_contra hne
            have he : zio_eof (zio_read s.zio (zio_data_to_flush s.zio + 1)).2.2 = true := by
              cases h : zio_eof (zio_read s.zio (zio_data_to_flush s.zio + 1)).2.2
              · exact absurd h hne
              · rfl
            apply hes
            apply zio_send_eof_sent_of_pending
            show zio_eof_pending (zio_read s.zio (zio_data_to_flush s.zio + 1)).2.2 = true
            simp [zio_eof_pending, he, cbuf_used, hb]
        obtain ⟨he1, hi1⟩ := hidle
        have hpend : zio_eof_pending (zio_read s.zio (zio_data_to_flush s.zio + 1)).2.2 = false := by
          simp [zio_eof_pending, he1]
        obtain ⟨u, hu, hus⟩ := zio_flush_loop_idle (cbuf_used s.zio.buf)
          (zio_send { s with zio := (zio_read s.zio (zio_data_to_flush s.zio + 1)).2.2 }
            (some (zio_read s.zio (zio_data_to_flush s.zio + 1)).2.1)
            (zio_read s.zio (zio_data_to_flush s.zio + 1)).1.toNat).1
          (zio_send { s with zio := (zio_read s.zio (zio_data_to_flush s.zio + 1)).2.2 }
            (some (zio_read s.zio (zio_data_to_flush s.zio + 1)).2.1)
            (zio_read s.zio (zio_data_to_flush s.zio + 1)).1.toNat).2
          (by rw [zio_send_eof_of_not_pending _ _ _ hpend]; exact he1)
          (by
            rw [zio_send_buf, zio_line_buffered_eq, zio_send_flags_of_not_pending _ _ _ hpend,
              ← zio_line_buffered_eq]
            exact hi1)
        refine ⟨_, hu, Or.inr ⟨_, ?_, hfst⟩⟩
        show u.sent = _
        rw [hus, hsent]
  · by_cases he : zio_eof s.zio = true
    · have hc : zio_data_to_flush s.zio > 0 ∨ zio_eof s.zio = true := Or.inr he
      rw [if_pos hc, if_neg hlen]
      have hz : s.zio.buf.length = 0 := by
        rw [← zio_data_to_flush_of_eof s.zio he]; omega
      have hp : zio_eof_pending s.zio = true := by
        simp [zio_eof_pending, he, cbuf_used, hz]
      rw [if_pos (zio_send_eof_sent_of_pending s none 0 hp)]
      exact ⟨_, rfl, Or.inr ⟨_, zio_send_sent s none 0, zio_send_fst s none 0⟩⟩
    · have hc : ¬ (zio_data_to_flush s.zio > 0 ∨ zio_eof s.zio = true) := by
        rintro (h1 | h1)
        · exact hlen h1
        · exact he h1
      rw [if_neg hc]
      exact ⟨_, rfl, Or.inl rfl⟩

/-- C5: `zio_flush` returns from every state, and if the send callback returns a
negative value for a frame that `zio_flush` hands to it (`init` being the frames handed
over before it in the same call), then that frame is the last one: the send callback is
not invoked again, and `zio_flush` returns a negative value.  This holds whether or not
EOF_SENT is set afterwards; one call hands over at most one frame, because in line mode
every complete line of the ring goes into the same frame. -/
theorem zio_flush_stops_at_failed_send (s : Sys) :
    ∃ (r : Int × Sys) (new : List Envelope), zio_flush s = some r ∧
      r.2.sent = s.sent ++ new ∧ new.length ≤ 1 ∧
      ∀ (init : List Envelope) (fr : Envelope) (rest : List Envelope),
        new = init ++ fr :: rest → s.zio.send (s.sent ++ init) fr < 0 →
          rest = [] ∧ r.1 < 0 := by
  obtain ⟨r, hr, h⟩ := zio_flush_one_frame s
  rcases h with h | ⟨fr, h1, h2⟩
  · refine ⟨r, [], hr, by rw [h, List.append_nil], Nat.zero_le _, ?_⟩
    intro init fr rest he
    cases init <;> cases he
  · refine ⟨r, [fr], hr, h1, Nat.le_refl _, ?_⟩
    intro init fr1 rest he hneg
    cases init with
    | nil =>
      rw [List.nil_append] at he
      injection he with he1 he2
      subst he1
      rw [List.append_nil] at hneg
      exact ⟨he2.symm, by rw [h2]; exact hneg⟩
    | cons a init1 =>
      rw [List.cons_append] at he
      injection he with he1 he2
      cases init1 <;> cases he2

/-- C5 at a concrete state: a line-buffered reader without EOF whose ring holds "a\nb\n",
with a send callback that returns -1 for the first frame it is handed: `zio_flush` hands
over the one frame "a\nb\n" and returns -1, with EOF_SENT clear. -/
theorem zio_flush_stops_at_failed_send_witness :
    (∃ (r : Int × Sys) (new : List Envelope), zio_flush ex_two_lines = some r ∧
      r.2.sent = ex_two_lines.sent ++ new ∧ new.length ≤ 1 ∧
      ∀ (init : List Envelope) (fr : Envelope) (rest : List Envelope),
        new = init ++ fr :: rest → ex_two_lines.zio.send (ex_two_lines.sent ++ init) fr < 0 →
          rest = [] ∧ r.1 < 0) ∧
    zio_line_buffered ex_two_lines.zio = true ∧ zio_eof ex_two_lines.zio = false ∧
    (zio_flush ex_two_lines).map
        (fun q => (q.1, q.2.sent.map envelope_payload,
          q.2.sent.map (ex_two_lines.zio.send ex_two_lines.sent), zio_eof_sent q.2.zio)) =
      some (-1, [[97, 10, 98, 10]], [-1], false) :=
  ⟨zio_flush_stops_at_failed_send ex_two_lines, by decide, by decide, by decide⟩

end FluxZio
